import Mathlib

set_option maxRecDepth 12000

/-!
Shallow embedding of the subtitle-timestamp repair engine
`fix_srt_timestamps` from `gg_api/get_subtitle.py`.

Text is modelled as `List Char`.  Each regular-expression substitution of the
Python source is hand-compiled to a deterministic anchored matcher
(`Matcher`), and `subAll` reproduces `re.sub`'s left-to-right scan over
non-overlapping matches together with the match count that the source obtains
from `re.findall`.  Python `float` arithmetic (used by the frame-number
patterns) is modelled exactly as IEEE-754 binary64: rationals rounded to
53 significant bits with round-to-nearest, ties-to-even (`round64`).
-/

/-- Python `\s` / `str.strip` whitespace, restricted to the ASCII range that
the subtitle texts use. -/
def isPySpace (c : Char) : Bool :=
  c = ' ' || c = '\t' || c = '\n' || c = '\r' || c = '\x0b' || c = '\x0c'

/-- Python `\w` (ASCII range): letters, digits and underscore. -/
def isPyWord (c : Char) : Bool :=
  c.isAlphanum || c = '_'

/-- Word-character test for the char left of the scan position (for `\b`);
a missing character counts as non-word. -/
def prevIsWord : Option Char → Bool
  | none => false
  | some c => isPyWord c

/-- Greedy span of a character class, like the regex `p*` (maximal run). -/
def spanP (p : Char → Bool) : List Char → List Char × List Char
  | [] => ([], [])
  | c :: s =>
    if p c then
      let r := spanP p s
      (c :: r.1, r.2)
    else ([], c :: s)

/-- `\d{n}`: exactly `n` digits. -/
def pDigits : Nat → List Char → Option (List Char × List Char)
  | 0, s => some ([], s)
  | _ + 1, [] => none
  | n + 1, c :: s =>
    if c.isDigit then (pDigits n s).map (fun r => (c :: r.1, r.2)) else none

/-- A single literal character. -/
def pCh (c : Char) : List Char → Option (List Char)
  | [] => none
  | d :: s => if d = c then some s else none

/-- A literal character sequence. -/
def pLit : List Char → List Char → Option (List Char)
  | [], s => some s
  | c :: cs, d :: s => if d = c then pLit cs s else none
  | _ :: _, [] => none

def arrowChars : List Char := "-->".data

/-- The canonical separator the repair functions emit. -/
def sepArrow : List Char := " --> ".data

/-- `\s*-->\s*`, returning the matched text (some replacement functions of the
source keep this captured group verbatim).  The greedy `\s*` runs need no
backtracking because `-` and digits are not whitespace. -/
def pArrowWs (s : List Char) : Option (List Char × List Char) :=
  let w1 := spanP isPySpace s
  match pLit arrowChars w1.2 with
  | some r2 =>
    let w2 := spanP isPySpace r2
    some (w1.1 ++ arrowChars ++ w2.1, w2.2)
  | none => none

/-- `\s*-->` (no trailing `\s*`), as in the `MM:SSS -->` pattern. -/
def pWsArrow (s : List Char) : Option (List Char) :=
  pLit arrowChars (spanP isPySpace s).2

/-- Greedy `(\d{1,2})` with no constraint after it: two digits if available,
else one. -/
def pUpTo2Digits : List Char → Option (List Char × List Char)
  | [] => none
  | [c] => if c.isDigit then some ([c], []) else none
  | c :: d :: s =>
    if c.isDigit then
      if d.isDigit then some ([c, d], s) else some ([c], d :: s)
    else none

/-- Greedy `(\d{1,2})` followed by `:` (the colon is consumed).  When the
two-digit branch reaches the colon test and fails, the one-digit branch is
doomed as well (the char after the first digit is a digit, not `:`), so the
matcher can commit, exactly like the backtracking regex. -/
def pD12Colon (s : List Char) : Option (List Char × List Char) :=
  match pDigits 2 s with
  | some (d, r) =>
    match pCh ':' r with
    | some r' => some (d, r')
    | none => none
  | none =>
    match pDigits 1 s with
    | some (d, r) => (pCh ':' r).map (fun r' => (d, r'))
    | none => none

/-- Greedy `(\d{1,2})` followed by captured `(\s*-->\s*)`.  Committing after
two digits is sound: if the arrow fails there, the one-digit branch would
need `\s*-->` to start at a digit, which is impossible. -/
def pD12Arrow (s : List Char) : Option (List Char × List Char × List Char) :=
  match pDigits 2 s with
  | some (d, r) =>
    match pArrowWs r with
    | some (a, r') => some (d, a, r')
    | none => none
  | none =>
    match pDigits 1 s with
    | some (d, r) => (pArrowWs r).map (fun x => (d, x.1, x.2))
    | none => none

/-- Maximal run of a class with a minimum length, like `\d{4,}`, `\d+`,
`[^\n]+`. -/
def pRunAtLeast (p : Char → Bool) (n : Nat) (s : List Char) :
    Option (List Char × List Char) :=
  let r := spanP p s
  if n ≤ r.1.length then some r else none

/-- Numeric value of a digit string, like Python `int`. -/
def natOfDigits (l : List Char) : Nat :=
  l.foldl (fun a c => a * 10 + (c.toNat - 48)) 0

def natToDigitsAux : Nat → Nat → List Char → List Char
  | 0, _, acc => acc
  | f + 1, n, acc =>
    let d := Char.ofNat (48 + n % 10)
    if n < 10 then d :: acc else natToDigitsAux f (n / 10) (d :: acc)

/-- Decimal digit string of a natural number. -/
def natToDigits (n : Nat) : List Char := natToDigitsAux 30 n []

/-- Python `"%02d" % n`. -/
def pad2 (n : Nat) : List Char :=
  let d := natToDigits n
  List.replicate (2 - d.length) '0' ++ d

/-- Python `"%03d" % n`. -/
def pad3 (n : Nat) : List Char :=
  let d := natToDigits n
  List.replicate (3 - d.length) '0' ++ d

/-- Python `str.lstrip('0')`. -/
def lstrip0 (l : List Char) : List Char := l.dropWhile (fun c => c = '0')

/-- Python `str.zfill(2)` (digit strings only). -/
def zfill2 (l : List Char) : List Char := List.replicate (2 - l.length) '0' ++ l

/-- Python `str.ljust(3, '0')`. -/
def ljust3 (l : List Char) : List Char := l ++ List.replicate (3 - l.length) '0'

/-! ### Exact model of Python (IEEE-754 binary64) float arithmetic

Exact rational arithmetic on raw (unreduced) fractions, so that every
operation is plain `Int`/`Nat` arithmetic and evaluates by kernel reduction.
The denominator is kept positive by construction. -/

/-- A raw fraction `n / d` with `d > 0` maintained by construction. -/
structure PyQ where
  n : Int
  d : Nat
  deriving DecidableEq

def qOfNat (m : Nat) : PyQ := ⟨(m : Int), 1⟩

def qAdd (a b : PyQ) : PyQ := ⟨a.n * (b.d : Int) + b.n * (a.d : Int), a.d * b.d⟩

def qSub (a b : PyQ) : PyQ := ⟨a.n * (b.d : Int) - b.n * (a.d : Int), a.d * b.d⟩

def qMul (a b : PyQ) : PyQ := ⟨a.n * b.n, a.d * b.d⟩

/-- Division; only used with divisors that are strictly positive. -/
def qDiv (a b : PyQ) : PyQ := ⟨a.n * (b.d : Int), b.n.toNat * a.d⟩

def qAbs (a : PyQ) : PyQ := ⟨|a.n|, a.d⟩

def qIsZero (a : PyQ) : Bool := a.n = 0

def qIsNeg (a : PyQ) : Bool := a.n < 0

/-- `a < b` (denominators are positive, so cross-multiplication is sound). -/
def qLt (a b : PyQ) : Bool := a.n * (b.d : Int) < b.n * (a.d : Int)

/-- Exact floor of a raw fraction. -/
def qfloor (a : PyQ) : ℤ := Int.fdiv a.n (a.d : Int)

/-- `2^z` as a raw fraction, for integer `z`. -/
def pow2z (z : ℤ) : PyQ :=
  if 0 ≤ z then ⟨(Nat.shiftLeft 1 z.toNat : ℕ), 1⟩ else ⟨1, Nat.shiftLeft 1 (-z).toNat⟩

def bitLenAux : Nat → Nat → Nat
  | 0, _ => 0
  | _ + 1, 0 => 0
  | f + 1, n => bitLenAux f (n / 2) + 1

/-- Number of binary digits: `2^(bitLen n - 1) ≤ n < 2^(bitLen n)` for `n > 0`. -/
def bitLen (n : Nat) : Nat := bitLenAux 1400 n

/-- Round a raw fraction to an integer, nearest, ties to even. -/
def rndHalfEven (r : PyQ) : ℤ :=
  let n := qfloor r
  let fr := qSub r ⟨n, 1⟩
  if qLt fr ⟨1, 2⟩ then n
  else if qLt ⟨1, 2⟩ fr then n + 1
  else if n % 2 = 0 then n else n + 1

/-- Round an exact value to the nearest IEEE-754 binary64 value (as an exact
fraction): 53 significant bits, round-to-nearest ties-to-even.  Values below
`2^-1200` flush to zero; no overflow handling (the modelled code stays far
inside the normal range). -/
def round64 (q : PyQ) : PyQ :=
  if qIsZero q then ⟨0, 1⟩
  else
    let a := qAbs q
    let n1200 : ℤ := qfloor (qMul a (pow2z 1200))
    if n1200 ≤ 0 then ⟨0, 1⟩
    else
      let e : ℤ := (bitLen n1200.toNat : ℤ) - 1 - 1200
      let u : ℤ := e - 52
      let m := rndHalfEven (qDiv a (pow2z u))
      let v := qMul ⟨m, 1⟩ (pow2z u)
      if qIsNeg q then ⟨-v.n, v.d⟩ else v

/-- Python float addition. -/
def fAdd (a b : PyQ) : PyQ := round64 (qAdd a b)

/-- Python float multiplication. -/
def fMul (a b : PyQ) : PyQ := round64 (qMul a b)

/-- Python float (true) division. -/
def fDiv (a b : PyQ) : PyQ := round64 (qDiv a b)

/-- Python `x % y` on nonnegative floats (C `fmod`); the result is exactly
representable, so no re-rounding happens. -/
def pyFmod (x y : PyQ) : PyQ := qSub x (qMul y ⟨qfloor (qDiv x y), 1⟩)

/-- Python `x // y` on nonnegative floats: the floor of the quotient,
re-rendered as a float. -/
def pyFloorDivF (x y : PyQ) : PyQ := round64 ⟨qfloor (qDiv x y), 1⟩

/-- Python `int(x)` for nonnegative floats (truncation). -/
def pyIntOf (q : PyQ) : Nat := (qfloor q).toNat

/-! ### The twelve regex substitutions of `fix_srt_timestamps` -/

/-- A matcher anchored at the scan position: given the previous character
(for `\b`) and the remaining text, return the replacement text and the rest
of the input after the match.  Every matcher consumes at least one char. -/
abbrev Matcher := Option Char → List Char → Option (List Char × List Char)

/-- `(\d{2}):(\d{2}):(\d{2})`: three two-digit groups. -/
def pTriple (s : List Char) :
    Option ((List Char × List Char × List Char) × List Char) := do
  let (a, r) ← pDigits 2 s
  let r ← pCh ':' r
  let (b, r) ← pDigits 2 r
  let r ← pCh ':' r
  let (c, r) ← pDigits 2 r
  pure ((a, b, c), r)

/-- `\d{2}:\d{2}:\d{2}` returning the eight matched characters verbatim. -/
def pTime8 (s : List Char) : Option (List Char × List Char) := do
  let (t, r) ← pTriple s
  pure (t.1 ++ ':' :: t.2.1 ++ ':' :: t.2.2, r)

/-- One side of the three-digit-hour pattern:
`(\d{3}):(\d{2}):(\d{2}),(\d{3})`. -/
def pSide3h (s : List Char) :
    Option ((List Char × List Char × List Char × List Char) × List Char) := do
  let (h, r) ← pDigits 3 s
  let r ← pCh ':' r
  let (m, r) ← pDigits 2 r
  let r ← pCh ':' r
  let (sec, r) ← pDigits 2 r
  let r ← pCh ',' r
  let (u, r) ← pDigits 3 r
  pure ((h, m, sec, u), r)

/-- Render one repaired side for `fix_3digit_hours`:
`lstrip('0').zfill(2)` on the hour field. -/
def render3h (g : List Char × List Char × List Char × List Char) : List Char :=
  zfill2 (lstrip0 g.1) ++ ':' :: g.2.1 ++ ':' :: g.2.2.1 ++ ',' :: g.2.2.2

/-- Pattern `(\d{3}):(\d{2}):(\d{2}),(\d{3})\s*-->\s*(\d{3}):(\d{2}):(\d{2}),(\d{3})`
with replacement `fix_3digit_hours` (canonical arrow in the output). -/
def fix_3digit_hours : Matcher := fun _ s => do
  let (g1, r) ← pSide3h s
  let (_, r) ← pArrowWs r
  let (g2, r) ← pSide3h r
  pure (render3h g1 ++ sepArrow ++ render3h g2, r)

/-- Pattern `(\d{2}:\d{2}:\d{2}),(\d{1,2})(\s*-->\s*)(\d{2}:\d{2}:\d{2}),(\d{1,2})`
with replacement `pad_milliseconds`: `ljust(3, '0')` on both millisecond
fields, the matched arrow text kept verbatim. -/
def pad_milliseconds : Matcher := fun _ s => do
  let (t1, r) ← pTime8 s
  let r ← pCh ',' r
  let (m1, a, r) ← pD12Arrow r
  let (t2, r) ← pTime8 r
  let r ← pCh ',' r
  let (m2, r) ← pUpTo2Digits r
  pure (t1 ++ ',' :: ljust3 m1 ++ a ++ t2 ++ ',' :: ljust3 m2, r)

/-- Pattern `(\d{2}:\d{2}:\d{2}),(\d{1})(\s*-->\s*)(\d{2}:\d{2}:\d{2}),(\d{1})`
with replacement `fix_single_milliseconds`: append `00` to both single-digit
millisecond fields. -/
def fix_single_milliseconds : Matcher := fun _ s => do
  let (t1, r) ← pTime8 s
  let r ← pCh ',' r
  let (m1, r) ← pDigits 1 r
  let (a, r) ← pArrowWs r
  let (t2, r) ← pTime8 r
  let r ← pCh ',' r
  let (m2, r) ← pDigits 1 r
  pure (t1 ++ ',' :: (m1 ++ "00".data) ++ a ++ t2 ++ ',' :: (m2 ++ "00".data), r)

/-- One side of the frame-number pattern:
`(\d{2}):(\d{2}):(\d{2}):(\d{2}),(\d{3})`. -/
def pSideFrame (s : List Char) :
    Option ((List Char × (List Char × List Char × List Char) × List Char) ×
      List Char) := do
  let (h, r) ← pDigits 2 s
  let r ← pCh ':' r
  let (t, r) ← pTriple r
  let r ← pCh ',' r
  let (u, r) ← pDigits 3 r
  pure ((h, t, u), r)

/-- One side of the frame-number conversion in `fix_frame_timestamps`
(Python floats, 25 fps, with the carry cascade of the source). -/
def fix_frame_side (h m s f u : List Char) : List Char :=
  let extra := fDiv (qOfNat (natOfDigits f)) (qOfNat 25)
  let total := fAdd (qOfNat (natOfDigits s)) extra
  let minutes := natOfDigits m + pyIntOf (pyFloorDivF total (qOfNat 60))
  let seconds := pyIntOf (pyFmod total (qOfNat 60))
  let msv := pyIntOf (fMul (pyFmod total (qOfNat 1)) (qOfNat 1000)) + natOfDigits u
  let p1 := if 1000 ≤ msv then (seconds + msv / 1000, msv % 1000) else (seconds, msv)
  let p2 := if 60 ≤ p1.1 then (minutes + p1.1 / 60, p1.1 % 60) else (minutes, p1.1)
  let hours := natOfDigits h + p2.1 / 60
  let minutes2 := p2.1 % 60
  pad2 hours ++ ':' :: pad2 minutes2 ++ ':' :: pad2 p2.2 ++ ',' :: pad3 p1.2

/-- Pattern
`(\d{2}):(\d{2}):(\d{2}):(\d{2}),(\d{3})\s*-->\s*(\d{2}):(\d{2}):(\d{2}):(\d{2}),(\d{3})`
with replacement `fix_frame_timestamps`. -/
def fix_frame_timestamps : Matcher := fun _ s => do
  let (g1, r) ← pSideFrame s
  let (_, r) ← pArrowWs r
  let (g2, r) ← pSideFrame r
  pure (fix_frame_side g1.1 g1.2.1.1 g1.2.1.2.1 g1.2.1.2.2 g1.2.2 ++ sepArrow ++
        fix_frame_side g2.1 g2.2.1.1 g2.2.1.2.1 g2.2.1.2.2 g2.2.2, r)

/-- One side of the simple-frame pattern: `(\d{1,2}):(\d{2}):(\d{2})`. -/
def pSideSimpleFrame (s : List Char) :
    Option ((List Char × List Char × List Char) × List Char) := do
  let (m, r) ← pD12Colon s
  let (sec, r) ← pDigits 2 r
  let r ← pCh ':' r
  let (f, r) ← pDigits 2 r
  pure ((m, sec, f), r)

/-- One side of `fix_simple_frame_timestamps` (no millisecond field, no
second/millisecond carry in the source). -/
def fix_simple_frame_side (m s f : List Char) : List Char :=
  let extra := fDiv (qOfNat (natOfDigits f)) (qOfNat 25)
  let total := fAdd (qOfNat (natOfDigits s)) extra
  let minutes := natOfDigits m + pyIntOf (pyFloorDivF total (qOfNat 60))
  let seconds := pyIntOf (pyFmod total (qOfNat 60))
  let msv := pyIntOf (fMul (pyFmod total (qOfNat 1)) (qOfNat 1000))
  let hours := minutes / 60
  let minutes2 := minutes % 60
  pad2 hours ++ ':' :: pad2 minutes2 ++ ':' :: pad2 seconds ++ ',' :: pad3 msv

/-- Pattern `(\d{1,2}):(\d{2}):(\d{2})\s*-->\s*(\d{1,2}):(\d{2}):(\d{2})`
with replacement `fix_simple_frame_timestamps`. -/
def fix_simple_frame_timestamps : Matcher := fun _ s => do
  let (g1, r) ← pSideSimpleFrame s
  let (_, r) ← pArrowWs r
  let (g2, r) ← pSideSimpleFrame r
  pure (fix_simple_frame_side g1.1 g1.2.1 g1.2.2 ++ sepArrow ++
        fix_simple_frame_side g2.1 g2.2.1 g2.2.2, r)

/-- Pattern `\b(\d{1,2}):(\d{3})\s*-->` with replacement
`fix_missing_hour_pre`: prepend a `00:` hour field. -/
def fix_missing_hour_pre : Matcher := fun prev s =>
  if prevIsWord prev then none
  else do
    let (mm, r) ← pD12Colon s
    let (sss, r) ← pDigits 3 r
    let r ← pWsArrow r
    pure ("00:".data ++ mm ++ ':' :: sss ++ " -->".data, r)

/-- Pattern `-->\s*(\d{1,2}):(\d{3})\b` with replacement
`fix_missing_hour_post`. -/
def fix_missing_hour_post : Matcher := fun _ s => do
  let r ← pLit arrowChars s
  let r1 := (spanP isPySpace r).2
  let (mm, r2) ← pD12Colon r1
  let (sss, r3) ← pDigits 3 r2
  if prevIsWord r3.head? then none
  else pure ("--> 00:".data ++ mm ++ ':' :: sss, r3)

/-- `convert_sss_to_seconds_milliseconds` from the source. -/
def convert_sss_to_seconds_milliseconds (sss : Nat) : Nat × Nat :=
  if 100 ≤ sss then (sss / 100, sss % 100 * 10) else (0, sss * 10)

/-- One side of the compact-seconds pattern: `(\d{2}):(\d{2}):(\d{3})`. -/
def pSideSSS (s : List Char) :
    Option ((List Char × List Char × List Char) × List Char) := do
  let (h, r) ← pDigits 2 s
  let r ← pCh ':' r
  let (m, r) ← pDigits 2 r
  let r ← pCh ':' r
  let (x, r) ← pDigits 3 r
  pure ((h, m, x), r)

/-- One side of `fix_timestamp_format` (`HH:MM:SSS` → canonical, with carry). -/
def fix_timestamp_format_side (h m sss : List Char) : List Char :=
  let p := convert_sss_to_seconds_milliseconds (natOfDigits sss)
  let minutes := natOfDigits m + p.1 / 60
  let seconds := p.1 % 60
  let hours := natOfDigits h + minutes / 60
  let minutes2 := minutes % 60
  pad2 hours ++ ':' :: pad2 minutes2 ++ ':' :: pad2 seconds ++ ',' :: pad3 p.2

/-- Pattern `(\d{2}):(\d{2}):(\d{3})\s*-->\s*(\d{2}):(\d{2}):(\d{3})` with
replacement `fix_timestamp_format`. -/
def fix_timestamp_format : Matcher := fun _ s => do
  let (g1, r) ← pSideSSS s
  let (_, r) ← pArrowWs r
  let (g2, r) ← pSideSSS r
  pure (fix_timestamp_format_side g1.1 g1.2.1 g1.2.2 ++ sepArrow ++
        fix_timestamp_format_side g2.1 g2.2.1 g2.2.2, r)

/-- Pattern `(\d{2}:\d{2}:\d{2}),(\d{4,})` with replacement
`truncate_milliseconds`: keep the first three digits. -/
def truncate_milliseconds : Matcher := fun _ s => do
  let (t, r) ← pTime8 s
  let r ← pCh ',' r
  let (ms, r) ← pRunAtLeast (fun c => c.isDigit) 4 r
  pure (t ++ ',' :: ms.take 3, r)

/-- One canonical half `\d{2}:\d{2}:\d{2},\d{3}` (text kept verbatim). -/
def pCanonHalf (s : List Char) : Option (List Char × List Char) := do
  let (t, r) ← pTime8 s
  let r ← pCh ',' r
  let (u, r) ← pDigits 3 r
  pure (t ++ ',' :: u, r)

/-- The canonical-timing part of the block-separating pattern
(`\d{2}:\d{2}:\d{2},\d{3}\s*-->\s*\d{2}:\d{2}:\d{2},\d{3}` captured
verbatim). -/
def pCanonTiming (s : List Char) : Option (List Char × List Char) := do
  let (x1, r) ← pCanonHalf s
  let (a, r) ← pArrowWs r
  let (x2, r) ← pCanonHalf r
  pure (x1 ++ a ++ x2, r)

/-- Pattern `([^\n]+)\n(\d+)\n(<canonical timing>)` with replacement
`separate_blocks`: insert a blank line after the text line. -/
def separate_blocks : Matcher := fun _ s => do
  let (a, r) ← pRunAtLeast (fun c => !(c = '\n')) 1 s
  let r ← pCh '\n' r
  let (b, r) ← pRunAtLeast (fun c => c.isDigit) 1 r
  let r ← pCh '\n' r
  let (timing, r) ← pCanonTiming r
  pure (a ++ '\n' :: '\n' :: b ++ '\n' :: timing, r)

/-- One dotted half `(\d{2}:\d{2}:\d{2})\.(\d{3})`. -/
def pDotHalf (s : List Char) :
    Option ((List Char × List Char) × List Char) := do
  let (t, r) ← pTime8 s
  let r ← pCh '.' r
  let (u, r) ← pDigits 3 r
  pure ((t, u), r)

/-- Pattern `(\d{2}:\d{2}:\d{2})\.(\d{3})\s*-->\s*(\d{2}:\d{2}:\d{2})\.(\d{3})`
with replacement `fix_comma_in_timestamp`: dot separators become commas. -/
def fix_comma_in_timestamp : Matcher := fun _ s => do
  let (g1, r) ← pDotHalf s
  let (_, r) ← pArrowWs r
  let (g2, r) ← pDotHalf r
  pure (g1.1 ++ ',' :: g1.2 ++ sepArrow ++ g2.1 ++ ',' :: g2.2, r)

/-- Pattern `(\d{2}:\d{2}:\d{2}),(\s*-->\s*)(\d{2}:\d{2}:\d{2}),` with
replacement `fix_empty_milliseconds`: insert `000` on both sides. -/
def fix_empty_milliseconds : Matcher := fun _ s => do
  let (t1, r) ← pTime8 s
  let r ← pCh ',' r
  let (a, r) ← pArrowWs r
  let (t2, r) ← pTime8 r
  let r ← pCh ',' r
  pure (t1 ++ ",000".data ++ a ++ t2 ++ ",000".data, r)
/-! ### `re.sub` scan, cleanup, iteration loop and entry point -/

/-- Left-to-right scan applying a matcher to every non-overlapping match,
exactly like `re.sub` with a replacement function; also counts the matches
(the count `re.findall` yields on the same text).  `fuel` bounds the scan
(callers pass `length + 1`, which is always sufficient since every match
consumes at least one character). -/
def subAll (m : Matcher) : Nat → Option Char → List Char → List Char × Nat
  | 0, _, s => (s, 0)
  | _ + 1, _, [] => ([], 0)
  | fuel + 1, prev, c :: s =>
    match m prev (c :: s) with
    | some (rep, rest) =>
      let consumed := (c :: s).length - rest.length
      let lastC := ((c :: s).take consumed).getLast?
      let r := subAll m fuel lastC rest
      (rep ++ r.1, r.2 + 1)
    | none =>
      let r := subAll m fuel (some c) s
      (c :: r.1, r.2)

/-- Apply one substitution over a whole text. -/
def applyPat (m : Matcher) (s : List Char) : List Char × Nat :=
  subAll m (s.length + 1) none s

/-- `re.sub(r'\n{3,}', '\n\n', ...)`: collapse runs of three or more
newlines to exactly two. -/
def cleanupNewlines : Nat → List Char → List Char
  | 0, s => s
  | _ + 1, [] => []
  | fuel + 1, c :: s =>
    if c = '\n' then
      let r := spanP (fun d => d = '\n') s
      (if 2 ≤ r.1.length then ['\n', '\n'] else c :: r.1) ++ cleanupNewlines fuel r.2
    else c :: cleanupNewlines fuel s

/-- Apply one substitution to the running `(text, fixes)` state. -/
def passStep (m : Matcher) (st : List Char × Nat) : List Char × Nat :=
  let r := applyPat m st.1
  (r.1, st.2 + r.2)

/-- Apply a list of substitutions left to right. -/
def runPats : List Matcher → List Char × Nat → List Char × Nat
  | [], st => st
  | m :: ms, st => runPats ms (passStep m st)

/-- The twelve substitutions in the order the source applies them. -/
def thePatterns : List Matcher :=
  [fix_3digit_hours, pad_milliseconds, fix_single_milliseconds,
   fix_frame_timestamps, fix_simple_frame_timestamps, fix_missing_hour_pre,
   fix_missing_hour_post, fix_timestamp_format, truncate_milliseconds,
   separate_blocks, fix_comma_in_timestamp, fix_empty_milliseconds]

/-- One iteration of the `while` loop of `fix_srt_timestamps`: the twelve
substitutions in source order, then the blank-line cleanup (which counts as
one fix when it changes the text).  Returns the new text and
`iteration_fixes`. -/
def onePass (s : List Char) : List Char × Nat :=
  let st := runPats thePatterns (s, 0)
  let cleaned := cleanupNewlines (st.1.length + 1) st.1
  (cleaned, st.2 + if cleaned = st.1 then 0 else 1)

/-- The bounded fixed-point loop (`max_iterations = 15` in the source):
returns the final text, the number of iterations used, and whether the loop
stopped because an iteration applied zero fixes. -/
def fixLoop : Nat → List Char → List Char × Nat × Bool
  | 0, s => (s, 0, false)
  | fuel + 1, s =>
    let p := onePass s
    if p.2 = 0 then (p.1, 1, true)
    else
      let r := fixLoop fuel p.1
      (r.1, r.2.1 + 1, r.2.2)

/-- Python `str.strip()` (ASCII whitespace). -/
def pyStrip (s : List Char) : List Char :=
  ((s.dropWhile isPySpace).reverse.dropWhile isPySpace).reverse

/-- `fix_srt_timestamps` on character lists: run the loop (cap 15), then
`strip()` the result. -/
def fix_srt_timestamps_chars (s : List Char) : List Char :=
  pyStrip (fixLoop 15 s).1

/-- The repair entry point `fix_srt_timestamps` of `gg_api/get_subtitle.py`
as a `String → String` function. -/
def fix_srt_timestamps (s : String) : String :=
  String.mk (fix_srt_timestamps_chars s.data)

/-- Iterations used by the loop on a given input. -/
def fixIterations (s : String) : Nat := (fixLoop 15 s.data).2.1

/-- Whether the loop stopped because a pass applied zero fixes. -/
def loopConverged (s : String) : Bool := (fixLoop 15 s.data).2.2

/-- The char left of position `i` when scanning `s` with initial left char `p`. -/
def prevAt (p : Option Char) (s : List Char) : Nat → Option Char
  | 0 => p
  | i + 1 => s[i]?

/-- Uniform statement: appending trailing whitespace to the text preserves a
matcher's success. -/
def MatcherExt (m : Matcher) : Prop :=
  ∀ p u rep r w, (∀ c ∈ w, isPySpace c = true) → m p u = some (rep, r) →
    ∃ rep' r', m p (u ++ w) = some (rep', r')

/-- A matcher's result depends on the previous character only through
`prevIsWord` (the `\b` test). -/
def MatcherPrev (m : Matcher) : Prop :=
  ∀ p p' u, prevIsWord p = prevIsWord p' → m p u = m p' u

/-! ### The blank-line cleanup: identity transfers to the stripped text -/
/-- The text contains three consecutive newlines somewhere. -/
def HasTriple (s : List Char) : Prop :=
  ∃ l r, s = l ++ '\n' :: '\n' :: '\n' :: r

def splitNlAux : List Char → List Char × List (List Char)
  | [] => ([], [])
  | c :: t =>
    let r := splitNlAux t
    if c = '\n' then ([], r.1 :: r.2) else (c :: r.1, r.2)

/-- The lines of a text (split on newline). -/
def linesOf (s : List Char) : List (List Char) :=
  (splitNlAux s).1 :: (splitNlAux s).2

/-- Whether `pat` occurs as a contiguous subsequence. -/
def containsSeq (pat : List Char) : List Char → Bool
  | [] => (pLit pat []).isSome
  | c :: t => (pLit pat (c :: t)).isSome || containsSeq pat t

/-- The strict canonical-timing-line pattern of the specification,
`^\d{2}:\d{2}:\d{2},\d{3} --> \d{2}:\d{2}:\d{2},\d{3}$` (single spaces
around the arrow, nothing else on the line). -/
def matchesCanonicalPattern (l : List Char) : Bool :=
  match pCanonHalf l with
  | some (_, r) =>
    match pLit sepArrow r with
    | some r2 =>
      match pCanonHalf r2 with
      | some (_, r3) => r3.isEmpty
      | none => false
    | none => false
  | none => false

/-- Read the four numeric components of a canonical `HH:MM:SS,mmm` token. -/
def parseCanonTS (l : List Char) : Option (Nat × Nat × Nat × Nat) := do
  let (a, r) ← pDigits 2 l
  let r ← pCh ':' r
  let (b, r) ← pDigits 2 r
  let r ← pCh ':' r
  let (c, r) ← pDigits 2 r
  let r ← pCh ',' r
  let (d, r) ← pDigits 3 r
  if r.isEmpty then
    pure (natOfDigits a, natOfDigits b, natOfDigits c, natOfDigits d)
  else none

/-! ### Lemmas -/

theorem subAll_zero_id (m : Matcher) :
    ∀ fuel p s, (subAll m fuel p s).2 = 0 → (subAll m fuel p s).1 = s := by
  intro fuel
  induction fuel with
  | zero => intro p s _; rfl
  | succ f ih =>
    intro p s h
    cases s with
    | nil => rfl
    | cons c t =>
      simp only [subAll] at h ⊢
      cases hm : m p (c :: t) with
      | some r =>
        simp only [hm] at h
        exact absurd h (by simp)
      | none =>
        simp only [hm] at h ⊢
        simpa using ih (some c) t h

theorem prevAt_cons (p : Option Char) (c : Char) (t : List Char) (j : Nat) :
    prevAt p (c :: t) (j + 1) = prevAt (some c) t j := by
  cases j with
  | zero => simp [prevAt]
  | succ i => simp [prevAt]

theorem subAll_zero_iff (m : Matcher) :
    ∀ fuel p s, s.length < fuel →
      ((subAll m fuel p s).2 = 0 ↔
        ∀ i, i < s.length → m (prevAt p s i) (s.drop i) = none) := by
  intro fuel
  induction fuel with
  | zero => intro p s h; omega
  | succ f ih =>
    intro p s hlen
    cases s with
    | nil => simp [subAll]
    | cons c t =>
      simp only [subAll]
      cases hm : m p (c :: t) with
      | some r =>
        simp only []
        constructor
        · intro h; simp at h
        · intro h
          have h0 := h 0 (by simp)
          simp only [prevAt, List.drop_zero] at h0
          rw [hm] at h0
          exact absurd h0 (by simp)
      | none =>
        simp only []
        have hlt : t.length < f := by simpa using Nat.lt_of_succ_lt_succ hlen
        constructor
        · intro h i hi
          cases i with
          | zero => simpa [prevAt] using hm
          | succ j =>
            have h2 := (ih (some c) t hlt).mp (by simpa using h)
            have := h2 j (by simpa using Nat.lt_of_succ_lt_succ hi)
            rw [prevAt_cons]
            simpa using this
        · intro h
          have : ∀ i, i < t.length → m (prevAt (some c) t i) (t.drop i) = none := by
            intro i hi
            cases i with
            | zero =>
              have := h 1 (by simpa using Nat.succ_lt_succ hi)
              simpa [prevAt] using this
            | succ j =>
              have hj : j + 2 < (c :: t).length := by simp; omega
              have := h (j + 2) hj
              rw [prevAt_cons] at this
              simpa using this
          simpa using (ih (some c) t hlt).mpr this

theorem runPats_zero :
    ∀ ms : List Matcher, ∀ st, (runPats ms st).2 = 0 →
      (runPats ms st).1 = st.1 ∧ st.2 = 0 := by
  intro ms
  induction ms with
  | nil => intro st h; exact ⟨rfl, h⟩
  | cons m ms ih =>
    intro st h
    simp only [runPats] at h ⊢
    obtain ⟨h1, h2⟩ := ih _ h
    simp only [passStep] at h1 h2 ⊢
    have hz : (applyPat m st.1).2 = 0 := by omega
    have := subAll_zero_id m (st.1.length + 1) none st.1 hz
    constructor
    · rw [h1]; exact this
    · omega

theorem onePass_zero (s : List Char) (h : (onePass s).2 = 0) : (onePass s).1 = s := by
  simp only [onePass] at h ⊢
  obtain ⟨h1, -⟩ := runPats_zero thePatterns (s, 0) (by omega)
  have hc : cleanupNewlines ((runPats thePatterns (s, 0)).1.length + 1)
      (runPats thePatterns (s, 0)).1 = (runPats thePatterns (s, 0)).1 := by
    by_contra hne
    simp only [if_neg hne] at h
    omega
  rw [hc, h1]

theorem fixLoop_le : ∀ fuel s, (fixLoop fuel s).2.1 ≤ fuel := by
  intro fuel
  induction fuel with
  | zero => intro s; simp [fixLoop]
  | succ f ih =>
    intro s
    simp only [fixLoop]
    by_cases h : (onePass s).2 = 0
    · simp [h]
    · simp only [if_neg h]
      have := ih (onePass s).1
      omega

theorem fixLoop_stop (fuel : Nat) (s : List Char) (h : (onePass s).2 = 0) :
    fixLoop (fuel + 1) s = (s, 1, true) := by
  have ht := onePass_zero s h
  show (let p := onePass s
        if p.2 = 0 then (p.1, 1, true)
        else
          let r := fixLoop fuel p.1
          (r.1, r.2.1 + 1, r.2.2)) = (s, 1, true)
  simp only [h, ht, if_pos]

theorem fixLoop_converged :
    ∀ fuel s, (fixLoop fuel s).2.2 = true → (onePass (fixLoop fuel s).1).2 = 0 := by
  intro fuel
  induction fuel with
  | zero => intro s h; simp [fixLoop] at h
  | succ f ih =>
    intro s h
    by_cases hz : (onePass s).2 = 0
    · rw [fixLoop_stop f s hz]
      simpa [onePass_zero s hz] using hz
    · have hrw : fixLoop (f + 1) s =
          ((fixLoop f (onePass s).1).1, (fixLoop f (onePass s).1).2.1 + 1,
            (fixLoop f (onePass s).1).2.2) := by
        show (let p := onePass s
              if p.2 = 0 then (p.1, 1, true)
              else
                let r := fixLoop f p.1
                (r.1, r.2.1 + 1, r.2.2)) = _
        simp only [if_neg hz]
      rw [hrw] at h ⊢
      exact ih (onePass s).1 h

/-! ### Extension lemmas: appending trailing whitespace preserves matches -/
theorem isPySpace_not_digit {c : Char} (h : isPySpace c = true) : c.isDigit = false := by
  simp only [isPySpace, Bool.or_eq_true, decide_eq_true_eq] at h
  rcases h with ((((h | h) | h) | h) | h) | h <;> subst h <;> decide

theorem isPySpace_not_word {c : Char} (h : isPySpace c = true) : isPyWord c = false := by
  simp only [isPySpace, Bool.or_eq_true, decide_eq_true_eq] at h
  rcases h with ((((h | h) | h) | h) | h) | h <;> subst h <;> decide

theorem pDigits_ext (w : List Char) :
    ∀ n u d r, pDigits n u = some (d, r) → pDigits n (u ++ w) = some (d, r ++ w) := by
  intro n
  induction n with
  | zero => intro u d r h; simp [pDigits] at h ⊢; simp [h.1, h.2]
  | succ k ih =>
    intro u d r h
    cases u with
    | nil => simp [pDigits] at h
    | cons c t =>
      simp only [pDigits, List.cons_append] at h ⊢
      by_cases hc : c.isDigit
      · simp only [hc, if_true, Option.map_eq_some'] at h ⊢
        obtain ⟨⟨d', r'⟩, hd, he⟩ := h
        exact ⟨(d', r' ++ w), ih t d' r' hd, by simp_all⟩
      · simp [hc] at h

theorem pCh_ext (w : List Char) (c : Char) :
    ∀ u r, pCh c u = some r → pCh c (u ++ w) = some (r ++ w) := by
  intro u r h
  cases u with
  | nil => simp [pCh] at h
  | cons d t =>
    simp only [pCh, List.cons_append] at h ⊢
    by_cases hd : d = c
    · simp only [hd, if_true] at h ⊢
      simp [← Option.some_inj.mp h]
    · simp [hd] at h

theorem pLit_ext (w : List Char) :
    ∀ lit u r, pLit lit u = some r → pLit lit (u ++ w) = some (r ++ w) := by
  intro lit
  induction lit with
  | nil => intro u r h; simp [pLit] at h ⊢; simp [h]
  | cons c cs ih =>
    intro u r h
    cases u with
    | nil => simp [pLit] at h
    | cons d t =>
      simp only [pLit, List.cons_append] at h ⊢
      by_cases hd : d = c
      · simp only [hd, if_true] at h ⊢
        exact ih t r h
      · simp [hd] at h

theorem pLit_nil_none (c : Char) (cs : List Char) : pLit (c :: cs) [] = none := rfl

theorem spanP_ext (w : List Char) (p : Char → Bool) :
    ∀ u a b, spanP p u = (a, b) →
      (b ≠ [] ∨ ∀ c ∈ w, p c = false) → spanP p (u ++ w) = (a, b ++ w) := by
  intro u
  induction u with
  | nil =>
    intro a b h hc
    simp only [spanP, Prod.mk.injEq] at h
    obtain ⟨ha, hb⟩ := h
    subst ha; subst hb
    rcases hc with hc | hc
    · exact absurd rfl hc
    · simp only [List.nil_append]
      cases w with
      | nil => rfl
      | cons c t =>
        have := hc c (by simp)
        simp [spanP, this]
  | cons c t ih =>
    intro a b h hc
    simp only [spanP, List.cons_append] at h ⊢
    by_cases hp : p c
    · simp only [hp, if_true] at h ⊢
      obtain ⟨ha, hb⟩ := Prod.mk.injEq .. ▸ h
      have := ih (spanP p t).1 (spanP p t).2 rfl (by
        rcases hc with hc | hc
        · left; rw [← hb] at hc; exact hc
        · right; exact hc)
      simp only [List.append_eq] at this ⊢
      rw [this]
      simp [← ha, ← hb]
    · simp only [hp, if_false] at h ⊢
      obtain ⟨ha, hb⟩ := Prod.mk.injEq .. ▸ h
      subst ha
      simp [← hb]

theorem pTriple_ext (w : List Char) (u : List Char)
    (g : List Char × List Char × List Char) (r : List Char)
    (h : pTriple u = some (g, r)) : pTriple (u ++ w) = some (g, r ++ w) := by
  simp only [pTriple, Option.bind_eq_bind, Option.bind_eq_some] at h ⊢
  obtain ⟨⟨a, r1⟩, h1, h⟩ := h
  obtain ⟨r2, h2, h⟩ := h
  obtain ⟨⟨b, r3⟩, h3, h⟩ := h
  obtain ⟨r4, h4, h⟩ := h
  obtain ⟨⟨c, r5⟩, h5, h⟩ := h
  simp only [Option.some_inj] at h
  refine ⟨(a, r1 ++ w), pDigits_ext w 2 u a r1 h1, ?_⟩
  refine ⟨r2 ++ w, pCh_ext w ':' r1 r2 h2, ?_⟩
  refine ⟨(b, r3 ++ w), pDigits_ext w 2 r2 b r3 h3, ?_⟩
  refine ⟨r4 ++ w, pCh_ext w ':' r3 r4 h4, ?_⟩
  refine ⟨(c, r5 ++ w), pDigits_ext w 2 r4 c r5 h5, ?_⟩
  simp_all

theorem pDigits_nil_none (n : Nat) : pDigits (n + 1) [] = none := rfl

theorem pCh_nil_none (c : Char) : pCh c [] = none := rfl

theorem pTriple_nil_none : pTriple [] = none := rfl

theorem pTime8_nil_none : pTime8 [] = none := rfl

theorem pD12Colon_nil_none : pD12Colon [] = none := rfl

theorem pDigits_ne_nil {n : Nat} {u : List Char} {d r : List Char}
    (h : pDigits (n + 1) u = some (d, r)) : u ≠ [] := by
  intro he; subst he; simp [pDigits] at h

theorem pCh_ne_nil {c : Char} {u r : List Char} (h : pCh c u = some r) : u ≠ [] := by
  intro he; subst he; simp [pCh] at h

theorem pTriple_ne_nil {u : List Char} {g : List Char × List Char × List Char}
    {r : List Char} (h : pTriple u = some (g, r)) : u ≠ [] := by
  intro he; subst he; simp [pTriple_nil_none] at h

theorem pTime8_ext (w : List Char) (u t r : List Char)
    (h : pTime8 u = some (t, r)) : pTime8 (u ++ w) = some (t, r ++ w) := by
  simp only [pTime8, Option.bind_eq_bind, Option.bind_eq_some] at h ⊢
  obtain ⟨⟨g, r1⟩, h1, h⟩ := h
  simp only [Option.some_inj] at h
  exact ⟨(g, r1 ++ w), pTriple_ext w u g r1 h1, by simp_all⟩

theorem pTime8_ne_nil {u t r : List Char} (h : pTime8 u = some (t, r)) : u ≠ [] := by
  intro he; subst he; simp [pTime8_nil_none] at h

theorem pArrowWs_ext (w : List Char) (u a r : List Char)
    (h : pArrowWs u = some (a, r)) (hr : r ≠ []) :
    pArrowWs (u ++ w) = some (a, r ++ w) := by
  simp only [pArrowWs] at h ⊢
  cases h1 : pLit arrowChars (spanP isPySpace u).2 with
  | none => rw [h1] at h; simp at h
  | some r2 =>
    rw [h1] at h
    simp only [Option.some_inj, Prod.mk.injEq] at h
    obtain ⟨ha, hr2⟩ := h
    have hb : (spanP isPySpace u).2 ≠ [] := by
      intro he; rw [he] at h1; exact absurd h1 (by simp [pLit_nil_none, arrowChars])
    have hs1 := spanP_ext w isPySpace u (spanP isPySpace u).1 (spanP isPySpace u).2 rfl
      (Or.inl hb)
    rw [hs1]
    simp only [pLit_ext w arrowChars (spanP isPySpace u).2 r2 h1]
    have hs2 := spanP_ext w isPySpace r2 (spanP isPySpace r2).1 (spanP isPySpace r2).2 rfl
      (Or.inl (by rw [hr2]; exact hr))
    rw [hs2]
    simp [← ha, ← hr2]

theorem pWsArrow_ext (w : List Char) (u r : List Char)
    (h : pWsArrow u = some r) : pWsArrow (u ++ w) = some (r ++ w) := by
  simp only [pWsArrow] at h ⊢
  have hb : (spanP isPySpace u).2 ≠ [] := by
    intro he; rw [he] at h; exact absurd h (by simp [pLit_nil_none, arrowChars])
  rw [spanP_ext w isPySpace u (spanP isPySpace u).1 (spanP isPySpace u).2 rfl (Or.inl hb)]
  exact pLit_ext w arrowChars (spanP isPySpace u).2 r h

theorem pUpTo2Digits_ext (w : List Char) (hw : ∀ c ∈ w, isPySpace c = true)
    (u d r : List Char) (h : pUpTo2Digits u = some (d, r)) :
    pUpTo2Digits (u ++ w) = some (d, r ++ w) := by
  cases u with
  | nil => simp [pUpTo2Digits] at h
  | cons c t =>
    cases t with
    | nil =>
      simp only [pUpTo2Digits] at h
      by_cases hc : c.isDigit
      · simp only [hc, if_true, Option.some_inj] at h
        cases w with
        | nil => simpa [pUpTo2Digits, hc] using h
        | cons e w' =>
          have he : e.isDigit = false := isPySpace_not_digit (hw e (by simp))
          simp only [List.cons_append, List.nil_append, pUpTo2Digits, hc, he]
          simp_all
      · simp [hc] at h
    | cons e t' =>
      simp only [pUpTo2Digits] at h
      by_cases hc : c.isDigit
      · by_cases he : e.isDigit
        · simp only [hc, he, if_true, Option.some_inj] at h
          simp only [List.cons_append, pUpTo2Digits, hc, he, if_true]
          simp_all
        · have he' : e.isDigit = false := by simpa using he
          simp only [hc, he', if_true] at h
          simp only [Bool.false_eq_true, if_false, Option.some_inj, Prod.mk.injEq] at h
          simp only [List.cons_append, pUpTo2Digits, hc, he', if_true, Bool.false_eq_true,
            if_false]
          simp [← h.1, ← h.2]
      · simp [hc] at h

theorem pD12Colon_ext (w : List Char) (hw : ∀ c ∈ w, isPySpace c = true)
    (u d r : List Char)
    (h : pD12Colon u = some (d, r)) : pD12Colon (u ++ w) = some (d, r ++ w) := by
  simp only [pD12Colon] at h ⊢
  cases h2 : pDigits 2 u with
  | some x =>
    obtain ⟨d2, r2⟩ := x
    simp only [h2] at h
    cases h3 : pCh ':' r2 with
    | none => simp [h3] at h
    | some r3 =>
      simp only [h3, Option.some_inj, Prod.mk.injEq] at h
      simp only [pDigits_ext w 2 u d2 r2 h2, pCh_ext w ':' r2 r3 h3]
      simp [← h.1, ← h.2]
  | none =>
    simp only [h2] at h
    cases h1 : pDigits 1 u with
    | none => simp [h1] at h
    | some x =>
      obtain ⟨d1, r1⟩ := x
      simp only [h1, Option.map_eq_some'] at h
      obtain ⟨r2, hr2, he⟩ := h
      -- the two-digit branch must also fail on `u ++ w`:
      -- `pDigits 2 u = none` with a first digit means the second char exists and
      -- is not a digit, or `u = [c]`; appending whitespace keeps it failing.
      have h2w : pDigits 2 (u ++ w) = none := by
        cases u with
        | nil => simp [pDigits] at h1
        | cons c t =>
          simp only [pDigits] at h1 h2 ⊢
          by_cases hc : c.isDigit
          · simp only [hc, if_true, Option.map_eq_some'] at h1
            simp only [hc, if_true]
            cases t with
            | nil =>
              cases w with
              | nil => simp [pDigits]
              | cons e w' =>
                have : e.isDigit = false := isPySpace_not_digit (hw e (by simp))
                simp [pDigits, this]
            | cons e t' =>
              simp only [pDigits] at h2 ⊢
              by_cases he : e.isDigit
              · simp only [he, if_true] at h2 ⊢
                simp only [hc, if_true, Option.map_eq_some'] at h2
                simp at h2
              · simp [he]
          · simp [hc] at h1
      simp only [h2w, pDigits_ext w 1 u d1 r1 h1, Option.map_eq_some']
      exact ⟨r2 ++ w, pCh_ext w ':' r1 r2 hr2, by simp_all⟩

theorem pD12Arrow_ext (w : List Char) (hw : ∀ c ∈ w, isPySpace c = true)
    (u d a r : List Char)
    (h : pD12Arrow u = some (d, a, r)) (hr : r ≠ []) :
    pD12Arrow (u ++ w) = some (d, a, r ++ w) := by
  simp only [pD12Arrow] at h ⊢
  cases h2 : pDigits 2 u with
  | some x =>
    obtain ⟨d2, r2⟩ := x
    simp only [h2] at h
    cases h3 : pArrowWs r2 with
    | none => simp [h3] at h
    | some x3 =>
      obtain ⟨a3, r3⟩ := x3
      simp only [h3, Option.some_inj, Prod.mk.injEq] at h
      obtain ⟨hd, ha, hrr⟩ := h
      simp only [pDigits_ext w 2 u d2 r2 h2,
        pArrowWs_ext w r2 a3 r3 h3 (by rw [hrr]; exact hr)]
      simp [← hd, ← ha, ← hrr]
  | none =>
    simp only [h2] at h
    cases h1 : pDigits 1 u with
    | none => simp [h1] at h
    | some x =>
      obtain ⟨d1, r1⟩ := x
      simp only [h1, Option.map_eq_some'] at h
      obtain ⟨⟨a2, r2⟩, ha2, he⟩ := h
      simp only [Prod.mk.injEq] at he
      obtain ⟨hd, ha, hrr⟩ := he
      -- the two-digit branch also fails on `u ++ w` (it failed because the
      -- second char of `u` is not a digit, or `u` is a single digit and
      -- `w` starts with whitespace)
      have h2w : pDigits 2 (u ++ w) = none := by
        cases u with
        | nil => simp [pDigits] at h1
        | cons c t =>
          simp only [pDigits] at h1 h2 ⊢
          by_cases hc : c.isDigit
          · simp only [hc, if_true, Option.map_eq_some'] at h1
            simp only [hc, if_true]
            cases t with
            | nil =>
              cases w with
              | nil => simp [pDigits]
              | cons e w' =>
                have : e.isDigit = false := isPySpace_not_digit (hw e (by simp))
                simp [pDigits, this]
            | cons e t' =>
              simp only [pDigits] at h2 ⊢
              by_cases hge : e.isDigit
              · simp only [hge, if_true] at h2 ⊢
                simp only [hc, if_true, Option.map_eq_some'] at h2
                simp at h2
              · simp [hge]
          · simp [hc] at h1
      simp only [h2w, pDigits_ext w 1 u d1 r1 h1, Option.map_eq_some']
      refine ⟨(a2, r2 ++ w), pArrowWs_ext w r1 a2 r2 ha2 (by rw [hrr]; exact hr), ?_⟩
      simp [← hd, ← ha, ← hrr]

theorem pRunAtLeast_ext (w : List Char) (p : Char → Bool) (n : Nat) (u a r : List Char)
    (h : pRunAtLeast p n u = some (a, r))
    (hc : r ≠ [] ∨ ∀ c ∈ w, p c = false) :
    pRunAtLeast p n (u ++ w) = some (a, r ++ w) := by
  simp only [pRunAtLeast] at h ⊢
  by_cases hn : n ≤ (spanP p u).1.length
  · simp only [if_pos hn, Option.some_inj] at h
    have hext := spanP_ext w p u a r h (by
      rcases hc with hcc | hcc
      · left; exact hcc
      · right; exact hcc)
    rw [hext]
    have hna : n ≤ a.length := by rw [h] at hn; exact hn
    simp [hna]
  · simp [if_neg hn] at h

theorem pSide3h_ext (w : List Char) (u : List Char)
    (g : List Char × List Char × List Char × List Char) (r : List Char)
    (h : pSide3h u = some (g, r)) : pSide3h (u ++ w) = some (g, r ++ w) := by
  simp only [pSide3h, Option.bind_eq_bind, Option.bind_eq_some] at h ⊢
  obtain ⟨⟨a, r1⟩, h1, h⟩ := h
  obtain ⟨r2, h2, h⟩ := h
  obtain ⟨⟨b, r3⟩, h3, h⟩ := h
  obtain ⟨r4, h4, h⟩ := h
  obtain ⟨⟨c, r5⟩, h5, h⟩ := h
  obtain ⟨r6, h6, h⟩ := h
  obtain ⟨⟨d, r7⟩, h7, h⟩ := h
  simp only [Option.some_inj] at h
  refine ⟨(a, r1 ++ w), pDigits_ext w 3 u a r1 h1, ?_⟩
  refine ⟨r2 ++ w, pCh_ext w ':' r1 r2 h2, ?_⟩
  refine ⟨(b, r3 ++ w), pDigits_ext w 2 r2 b r3 h3, ?_⟩
  refine ⟨r4 ++ w, pCh_ext w ':' r3 r4 h4, ?_⟩
  refine ⟨(c, r5 ++ w), pDigits_ext w 2 r4 c r5 h5, ?_⟩
  refine ⟨r6 ++ w, pCh_ext w ',' r5 r6 h6, ?_⟩
  refine ⟨(d, r7 ++ w), pDigits_ext w 3 r6 d r7 h7, ?_⟩
  simp_all

theorem pSide3h_ne_nil {u : List Char} {g : List Char × List Char × List Char × List Char}
    {r : List Char} (h : pSide3h u = some (g, r)) : u ≠ [] := by
  intro he; subst he
  simp [pSide3h, show pDigits 3 ([] : List Char) = none from rfl] at h

theorem pSideFrame_ext (w : List Char) (u : List Char)
    (g : List Char × (List Char × List Char × List Char) × List Char) (r : List Char)
    (h : pSideFrame u = some (g, r)) : pSideFrame (u ++ w) = some (g, r ++ w) := by
  simp only [pSideFrame, Option.bind_eq_bind, Option.bind_eq_some] at h ⊢
  obtain ⟨⟨a, r1⟩, h1, h⟩ := h
  obtain ⟨r2, h2, h⟩ := h
  obtain ⟨⟨t, r3⟩, h3, h⟩ := h
  obtain ⟨r4, h4, h⟩ := h
  obtain ⟨⟨d, r5⟩, h5, h⟩ := h
  simp only [Option.some_inj] at h
  refine ⟨(a, r1 ++ w), pDigits_ext w 2 u a r1 h1, ?_⟩
  refine ⟨r2 ++ w, pCh_ext w ':' r1 r2 h2, ?_⟩
  refine ⟨(t, r3 ++ w), pTriple_ext w r2 t r3 h3, ?_⟩
  refine ⟨r4 ++ w, pCh_ext w ',' r3 r4 h4, ?_⟩
  refine ⟨(d, r5 ++ w), pDigits_ext w 3 r4 d r5 h5, ?_⟩
  simp_all

theorem pSideFrame_ne_nil {u : List Char}
    {g : List Char × (List Char × List Char × List Char) × List Char}
    {r : List Char} (h : pSideFrame u = some (g, r)) : u ≠ [] := by
  intro he; subst he
  simp [pSideFrame, show pDigits 2 ([] : List Char) = none from rfl] at h

theorem pSideSimpleFrame_ext (w : List Char) (hw : ∀ c ∈ w, isPySpace c = true)
    (u : List Char) (g : List Char × List Char × List Char) (r : List Char)
    (h : pSideSimpleFrame u = some (g, r)) :
    pSideSimpleFrame (u ++ w) = some (g, r ++ w) := by
  simp only [pSideSimpleFrame, Option.bind_eq_bind, Option.bind_eq_some] at h ⊢
  obtain ⟨⟨a, r1⟩, h1, h⟩ := h
  obtain ⟨⟨b, r2⟩, h2, h⟩ := h
  obtain ⟨r3, h3, h⟩ := h
  obtain ⟨⟨c, r4⟩, h4, h⟩ := h
  simp only [Option.some_inj] at h
  refine ⟨(a, r1 ++ w), pD12Colon_ext w hw u a r1 h1, ?_⟩
  refine ⟨(b, r2 ++ w), pDigits_ext w 2 r1 b r2 h2, ?_⟩
  refine ⟨r3 ++ w, pCh_ext w ':' r2 r3 h3, ?_⟩
  refine ⟨(c, r4 ++ w), pDigits_ext w 2 r3 c r4 h4, ?_⟩
  simp_all

theorem pSideSimpleFrame_ne_nil {u : List Char} {g : List Char × List Char × List Char}
    {r : List Char} (h : pSideSimpleFrame u = some (g, r)) : u ≠ [] := by
  intro he; subst he
  simp [pSideSimpleFrame, pD12Colon_nil_none] at h

theorem pSideSSS_ext (w : List Char) (u : List Char)
    (g : List Char × List Char × List Char) (r : List Char)
    (h : pSideSSS u = some (g, r)) : pSideSSS (u ++ w) = some (g, r ++ w) := by
  simp only [pSideSSS, Option.bind_eq_bind, Option.bind_eq_some] at h ⊢
  obtain ⟨⟨a, r1⟩, h1, h⟩ := h
  obtain ⟨r2, h2, h⟩ := h
  obtain ⟨⟨b, r3⟩, h3, h⟩ := h
  obtain ⟨r4, h4, h⟩ := h
  obtain ⟨⟨c, r5⟩, h5, h⟩ := h
  simp only [Option.some_inj] at h
  refine ⟨(a, r1 ++ w), pDigits_ext w 2 u a r1 h1, ?_⟩
  refine ⟨r2 ++ w, pCh_ext w ':' r1 r2 h2, ?_⟩
  refine ⟨(b, r3 ++ w), pDigits_ext w 2 r2 b r3 h3, ?_⟩
  refine ⟨r4 ++ w, pCh_ext w ':' r3 r4 h4, ?_⟩
  refine ⟨(c, r5 ++ w), pDigits_ext w 3 r4 c r5 h5, ?_⟩
  simp_all

theorem pSideSSS_ne_nil {u : List Char} {g : List Char × List Char × List Char}
    {r : List Char} (h : pSideSSS u = some (g, r)) : u ≠ [] := by
  intro he; subst he
  simp [pSideSSS, show pDigits 2 ([] : List Char) = none from rfl] at h

theorem pCanonHalf_ext (w : List Char) (u t r : List Char)
    (h : pCanonHalf u = some (t, r)) : pCanonHalf (u ++ w) = some (t, r ++ w) := by
  simp only [pCanonHalf, Option.bind_eq_bind, Option.bind_eq_some] at h ⊢
  obtain ⟨⟨a, r1⟩, h1, h⟩ := h
  obtain ⟨r2, h2, h⟩ := h
  obtain ⟨⟨b, r3⟩, h3, h⟩ := h
  simp only [Option.some_inj] at h
  refine ⟨(a, r1 ++ w), pTime8_ext w u a r1 h1, ?_⟩
  refine ⟨r2 ++ w, pCh_ext w ',' r1 r2 h2, ?_⟩
  refine ⟨(b, r3 ++ w), pDigits_ext w 3 r2 b r3 h3, ?_⟩
  simp_all

theorem pCanonHalf_ne_nil {u t r : List Char} (h : pCanonHalf u = some (t, r)) :
    u ≠ [] := by
  intro he; subst he
  simp [pCanonHalf, pTime8_nil_none] at h

theorem pCanonTiming_ext (w : List Char) (u t r : List Char)
    (h : pCanonTiming u = some (t, r)) : pCanonTiming (u ++ w) = some (t, r ++ w) := by
  simp only [pCanonTiming, Option.bind_eq_bind, Option.bind_eq_some] at h ⊢
  obtain ⟨⟨x1, r1⟩, h1, h⟩ := h
  obtain ⟨⟨a, r2⟩, h2, h⟩ := h
  obtain ⟨⟨x2, r3⟩, h3, h⟩ := h
  simp only [Option.some_inj] at h
  refine ⟨(x1, r1 ++ w), pCanonHalf_ext w u x1 r1 h1, ?_⟩
  refine ⟨(a, r2 ++ w), pArrowWs_ext w r1 a r2 h2 (pCanonHalf_ne_nil h3), ?_⟩
  refine ⟨(x2, r3 ++ w), pCanonHalf_ext w r2 x2 r3 h3, ?_⟩
  simp_all

theorem fix_3digit_hours_ext : MatcherExt fix_3digit_hours := by
  intro p u rep r w hw h
  simp only [fix_3digit_hours, Option.bind_eq_bind, Option.bind_eq_some] at h ⊢
  obtain ⟨⟨g1, r1⟩, h1, h⟩ := h
  obtain ⟨⟨a, r2⟩, h2, h⟩ := h
  obtain ⟨⟨g2, r3⟩, h3, -⟩ := h
  simp only at h2 h3
  refine ⟨_, _, (g1, r1 ++ w), pSide3h_ext w u g1 r1 h1,
    (a, r2 ++ w), pArrowWs_ext w r1 a r2 h2 (pSide3h_ne_nil h3),
    (g2, r3 ++ w), pSide3h_ext w r2 g2 r3 h3, rfl⟩

theorem pad_milliseconds_ext : MatcherExt pad_milliseconds := by
  intro p u rep r w hw h
  simp only [pad_milliseconds, Option.bind_eq_bind, Option.bind_eq_some] at h ⊢
  obtain ⟨⟨t1, r1⟩, h1, h⟩ := h
  obtain ⟨r2, h2, h⟩ := h
  obtain ⟨⟨m1, a, r3⟩, h3, h⟩ := h
  obtain ⟨⟨t2, r4⟩, h4, h⟩ := h
  obtain ⟨r5, h5, h⟩ := h
  obtain ⟨⟨m2, r6⟩, h6, -⟩ := h
  simp only at h2 h3 h4 h5 h6
  refine ⟨_, _, (t1, r1 ++ w), pTime8_ext w u t1 r1 h1,
    r2 ++ w, pCh_ext w ',' r1 r2 h2,
    (m1, a, r3 ++ w), pD12Arrow_ext w hw r2 m1 a r3 h3 (pTime8_ne_nil h4),
    (t2, r4 ++ w), pTime8_ext w r3 t2 r4 h4,
    r5 ++ w, pCh_ext w ',' r4 r5 h5,
    (m2, r6 ++ w), pUpTo2Digits_ext w hw r5 m2 r6 h6, rfl⟩

theorem fix_single_milliseconds_ext : MatcherExt fix_single_milliseconds := by
  intro p u rep r w hw h
  simp only [fix_single_milliseconds, Option.bind_eq_bind, Option.bind_eq_some] at h ⊢
  obtain ⟨⟨t1, r1⟩, h1, h⟩ := h
  obtain ⟨r2, h2, h⟩ := h
  obtain ⟨⟨m1, r3⟩, h3, h⟩ := h
  obtain ⟨⟨a, r4⟩, h4, h⟩ := h
  obtain ⟨⟨t2, r5⟩, h5, h⟩ := h
  obtain ⟨r6, h6, h⟩ := h
  obtain ⟨⟨m2, r7⟩, h7, -⟩ := h
  simp only at h2 h3 h4 h5 h6 h7
  refine ⟨_, _, (t1, r1 ++ w), pTime8_ext w u t1 r1 h1,
    r2 ++ w, pCh_ext w ',' r1 r2 h2,
    (m1, r3 ++ w), pDigits_ext w 1 r2 m1 r3 h3,
    (a, r4 ++ w), pArrowWs_ext w r3 a r4 h4 (pTime8_ne_nil h5),
    (t2, r5 ++ w), pTime8_ext w r4 t2 r5 h5,
    r6 ++ w, pCh_ext w ',' r5 r6 h6,
    (m2, r7 ++ w), pDigits_ext w 1 r6 m2 r7 h7, rfl⟩

theorem fix_frame_timestamps_ext : MatcherExt fix_frame_timestamps := by
  intro p u rep r w hw h
  simp only [fix_frame_timestamps, Option.bind_eq_bind, Option.bind_eq_some] at h ⊢
  obtain ⟨⟨g1, r1⟩, h1, h⟩ := h
  obtain ⟨⟨a, r2⟩, h2, h⟩ := h
  obtain ⟨⟨g2, r3⟩, h3, -⟩ := h
  simp only at h2 h3
  refine ⟨_, _, (g1, r1 ++ w), pSideFrame_ext w u g1 r1 h1,
    (a, r2 ++ w), pArrowWs_ext w r1 a r2 h2 (pSideFrame_ne_nil h3),
    (g2, r3 ++ w), pSideFrame_ext w r2 g2 r3 h3, rfl⟩

theorem fix_simple_frame_timestamps_ext : MatcherExt fix_simple_frame_timestamps := by
  intro p u rep r w hw h
  simp only [fix_simple_frame_timestamps, Option.bind_eq_bind, Option.bind_eq_some] at h ⊢
  obtain ⟨⟨g1, r1⟩, h1, h⟩ := h
  obtain ⟨⟨a, r2⟩, h2, h⟩ := h
  obtain ⟨⟨g2, r3⟩, h3, -⟩ := h
  simp only at h2 h3
  refine ⟨_, _, (g1, r1 ++ w), pSideSimpleFrame_ext w hw u g1 r1 h1,
    (a, r2 ++ w), pArrowWs_ext w r1 a r2 h2 (pSideSimpleFrame_ne_nil h3),
    (g2, r3 ++ w), pSideSimpleFrame_ext w hw r2 g2 r3 h3, rfl⟩

theorem fix_missing_hour_pre_ext : MatcherExt fix_missing_hour_pre := by
  intro p u rep r w hw h
  simp only [fix_missing_hour_pre] at h ⊢
  by_cases hp : prevIsWord p
  · simp [hp] at h
  · simp only [hp, Bool.false_eq_true, if_false] at h ⊢
    simp only [Option.bind_eq_bind, Option.bind_eq_some] at h ⊢
    obtain ⟨⟨mm, r1⟩, h1, h⟩ := h
    obtain ⟨⟨sss, r2⟩, h2, h⟩ := h
    obtain ⟨r3, h3, -⟩ := h
    simp only at h2 h3
    refine ⟨_, _, (mm, r1 ++ w), pD12Colon_ext w hw u mm r1 h1,
      (sss, r2 ++ w), pDigits_ext w 3 r1 sss r2 h2,
      r3 ++ w, pWsArrow_ext w r2 r3 h3, rfl⟩

theorem pD12Colon_ne_nil {u : List Char} {d r : List Char}
    (h : pD12Colon u = some (d, r)) : u ≠ [] := by
  intro he; subst he; simp [pD12Colon_nil_none] at h

theorem fix_missing_hour_post_ext : MatcherExt fix_missing_hour_post := by
  intro p u rep r w hw h
  simp only [fix_missing_hour_post, Option.bind_eq_bind, Option.bind_eq_some] at h ⊢
  obtain ⟨r0, h0, h⟩ := h
  obtain ⟨⟨mm, r2⟩, h2, h⟩ := h
  obtain ⟨⟨sss, r3⟩, h3, h⟩ := h
  simp only at h3
  have hb : (spanP isPySpace r0).2 ≠ [] := pD12Colon_ne_nil h2
  by_cases hbw : prevIsWord r3.head?
  · simp [hbw] at h
  · have hbw2 : prevIsWord (r3.head?.or w.head?) = false := by
      cases r3 with
      | nil =>
        cases w with
        | nil => rfl
        | cons c t => simpa [prevIsWord] using isPySpace_not_word (hw c (by simp))
      | cons c t => simpa using (by simpa using hbw)
    refine ⟨"--> 00:".data ++ mm ++ ':' :: sss, r3 ++ w, r0 ++ w,
      pLit_ext w arrowChars u r0 h0, ?_⟩
    rw [spanP_ext w isPySpace r0 (spanP isPySpace r0).1 (spanP isPySpace r0).2 rfl
      (Or.inl hb)]
    refine ⟨(mm, r2 ++ w), pD12Colon_ext w hw (spanP isPySpace r0).2 mm r2 h2,
      (sss, r3 ++ w), pDigits_ext w 3 r2 sss r3 h3, ?_⟩
    simp [hbw2]

theorem fix_timestamp_format_ext : MatcherExt fix_timestamp_format := by
  intro p u rep r w hw h
  simp only [fix_timestamp_format, Option.bind_eq_bind, Option.bind_eq_some] at h ⊢
  obtain ⟨⟨g1, r1⟩, h1, h⟩ := h
  obtain ⟨⟨a, r2⟩, h2, h⟩ := h
  obtain ⟨⟨g2, r3⟩, h3, -⟩ := h
  simp only at h2 h3
  refine ⟨_, _, (g1, r1 ++ w), pSideSSS_ext w u g1 r1 h1,
    (a, r2 ++ w), pArrowWs_ext w r1 a r2 h2 (pSideSSS_ne_nil h3),
    (g2, r3 ++ w), pSideSSS_ext w r2 g2 r3 h3, rfl⟩

theorem truncate_milliseconds_ext : MatcherExt truncate_milliseconds := by
  intro p u rep r w hw h
  simp only [truncate_milliseconds, Option.bind_eq_bind, Option.bind_eq_some] at h ⊢
  obtain ⟨⟨t1, r1⟩, h1, h⟩ := h
  obtain ⟨r2, h2, h⟩ := h
  obtain ⟨⟨ms, r3⟩, h3, -⟩ := h
  simp only at h2 h3
  refine ⟨_, _, (t1, r1 ++ w), pTime8_ext w u t1 r1 h1,
    r2 ++ w, pCh_ext w ',' r1 r2 h2,
    (ms, r3 ++ w), pRunAtLeast_ext w (fun c => c.isDigit) 4 r2 ms r3 h3
      (Or.inr (fun c hc => isPySpace_not_digit (hw c hc))), rfl⟩

theorem separate_blocks_ext : MatcherExt separate_blocks := by
  intro p u rep r w hw h
  simp only [separate_blocks, Option.bind_eq_bind, Option.bind_eq_some] at h ⊢
  obtain ⟨⟨a, r1⟩, h1, h⟩ := h
  obtain ⟨r2, h2, h⟩ := h
  obtain ⟨⟨b, r3⟩, h3, h⟩ := h
  obtain ⟨r4, h4, h⟩ := h
  obtain ⟨⟨timing, r5⟩, h5, -⟩ := h
  simp only at h2 h3 h4 h5
  refine ⟨_, _, (a, r1 ++ w), pRunAtLeast_ext w (fun c => !(c = '\n')) 1 u a r1 h1
      (Or.inl (pCh_ne_nil h2)),
    r2 ++ w, pCh_ext w '\n' r1 r2 h2,
    (b, r3 ++ w), pRunAtLeast_ext w (fun c => c.isDigit) 1 r2 b r3 h3
      (Or.inl (pCh_ne_nil h4)),
    r4 ++ w, pCh_ext w '\n' r3 r4 h4,
    (timing, r5 ++ w), pCanonTiming_ext w r4 timing r5 h5, rfl⟩

theorem fix_comma_in_timestamp_ext : MatcherExt fix_comma_in_timestamp := by
  intro p u rep r w hw h
  simp only [fix_comma_in_timestamp, Option.bind_eq_bind, Option.bind_eq_some] at h ⊢
  obtain ⟨⟨g1, r1⟩, h1, h⟩ := h
  obtain ⟨⟨a, r2⟩, h2, h⟩ := h
  obtain ⟨⟨g2, r3⟩, h3, -⟩ := h
  simp only at h2 h3
  have hne : r2 ≠ [] := by
    intro he; subst he
    simp [pDotHalf, pTime8_nil_none] at h3
  have hd1 : pDotHalf (u ++ w) = some (g1, r1 ++ w) := by
    simp only [pDotHalf, Option.bind_eq_bind, Option.bind_eq_some] at h1 ⊢
    obtain ⟨⟨t, s1⟩, hh1, h1⟩ := h1
    obtain ⟨s2, hh2, h1⟩ := h1
    obtain ⟨⟨uu, s3⟩, hh3, hfin⟩ := h1
    simp only at hh2 hh3
    simp only [pure, Option.some_inj, Prod.mk.injEq] at hfin
    refine ⟨(t, s1 ++ w), pTime8_ext w u t s1 hh1,
      s2 ++ w, pCh_ext w '.' s1 s2 hh2,
      (uu, s3 ++ w), pDigits_ext w 3 s2 uu s3 hh3, ?_⟩
    simp only [pure, Option.some_inj, Prod.mk.injEq]
    exact ⟨hfin.1, by rw [← hfin.2]⟩
  have hd2 : pDotHalf (r2 ++ w) = some (g2, r3 ++ w) := by
    simp only [pDotHalf, Option.bind_eq_bind, Option.bind_eq_some] at h3 ⊢
    obtain ⟨⟨t, s1⟩, hh1, h3⟩ := h3
    obtain ⟨s2, hh2, h3⟩ := h3
    obtain ⟨⟨uu, s3⟩, hh3, hfin⟩ := h3
    simp only at hh2 hh3
    simp only [pure, Option.some_inj, Prod.mk.injEq] at hfin
    refine ⟨(t, s1 ++ w), pTime8_ext w r2 t s1 hh1,
      s2 ++ w, pCh_ext w '.' s1 s2 hh2,
      (uu, s3 ++ w), pDigits_ext w 3 s2 uu s3 hh3, ?_⟩
    simp only [pure, Option.some_inj, Prod.mk.injEq]
    exact ⟨hfin.1, by rw [← hfin.2]⟩
  exact ⟨_, _, (g1, r1 ++ w), hd1, (a, r2 ++ w), pArrowWs_ext w r1 a r2 h2 hne,
    (g2, r3 ++ w), hd2, rfl⟩

theorem fix_empty_milliseconds_ext : MatcherExt fix_empty_milliseconds := by
  intro p u rep r w hw h
  simp only [fix_empty_milliseconds, Option.bind_eq_bind, Option.bind_eq_some] at h ⊢
  obtain ⟨⟨t1, r1⟩, h1, h⟩ := h
  obtain ⟨r2, h2, h⟩ := h
  obtain ⟨⟨a, r3⟩, h3, h⟩ := h
  obtain ⟨⟨t2, r4⟩, h4, h⟩ := h
  obtain ⟨r5, h5, -⟩ := h
  simp only at h2 h3 h4 h5
  refine ⟨_, _, (t1, r1 ++ w), pTime8_ext w u t1 r1 h1,
    r2 ++ w, pCh_ext w ',' r1 r2 h2,
    (a, r3 ++ w), pArrowWs_ext w r2 a r3 h3 (pTime8_ne_nil h4),
    (t2, r4 ++ w), pTime8_ext w r3 t2 r4 h4,
    r5 ++ w, pCh_ext w ',' r4 r5 h5, rfl⟩

theorem fix_missing_hour_pre_prev : MatcherPrev fix_missing_hour_pre := by
  intro p p' u h
  simp only [fix_missing_hour_pre, h]

theorem pyStrip_decomp (t : List Char) :
    ∃ w1 w2, t = w1 ++ pyStrip t ++ w2 ∧
      (∀ c ∈ w1, isPySpace c = true) ∧ (∀ c ∈ w2, isPySpace c = true) := by
  refine ⟨t.takeWhile isPySpace,
    ((t.dropWhile isPySpace).reverse.takeWhile isPySpace).reverse, ?_, ?_, ?_⟩
  · have h1 : (t.dropWhile isPySpace).reverse =
        (t.dropWhile isPySpace).reverse.takeWhile isPySpace ++
          (t.dropWhile isPySpace).reverse.dropWhile isPySpace :=
      (List.takeWhile_append_dropWhile _ _).symm
    have h2 : t.dropWhile isPySpace =
        ((t.dropWhile isPySpace).reverse.dropWhile isPySpace).reverse ++
          ((t.dropWhile isPySpace).reverse.takeWhile isPySpace).reverse := by
      have := congrArg List.reverse h1
      rw [List.reverse_reverse, List.reverse_append] at this
      exact this
    have h3 : t = t.takeWhile isPySpace ++ t.dropWhile isPySpace :=
      (List.takeWhile_append_dropWhile _ _).symm
    rw [List.append_assoc]
    simp only [pyStrip]
    rw [← h2]
    exact h3
  · intro c hc; exact List.mem_takeWhile_imp hc
  · intro c hc
    rw [List.mem_reverse] at hc
    exact List.mem_takeWhile_imp hc

theorem drop_append_len (w x : List Char) (j : Nat) :
    (w ++ x).drop (w.length + j) = x.drop j := by
  induction w with
  | nil => simp
  | cons c t ih =>
    rw [List.cons_append, List.length_cons, Nat.succ_add, Nat.succ_eq_add_one,
      List.drop_succ_cons]
    exact ih

theorem getElem?_append_len (w x : List Char) (j : Nat) :
    (w ++ x)[w.length + j]? = x[j]? := by
  induction w with
  | nil => simp
  | cons c t ih => simpa [Nat.succ_add] using ih

theorem mem_of_getElem?_eq {l : List Char} :
    ∀ {i : Nat} {a : Char}, l[i]? = some a → a ∈ l := by
  induction l with
  | nil => intro i a h; simp at h
  | cons c t ih =>
    intro i a h
    cases i with
    | zero => simp at h; simp [h]
    | succ k => simp only [List.getElem?_cons_succ] at h; exact List.mem_cons_of_mem c (ih h)

theorem applyPat_zero_transfer (m : Matcher) (hext : MatcherExt m)
    (hprev : MatcherPrev m) (t : List Char) (h : (applyPat m t).2 = 0) :
    (applyPat m (pyStrip t)).2 = 0 := by
  obtain ⟨w1, w2, hdec, hw1, hw2⟩ := pyStrip_decomp t
  set core := pyStrip t with hcore
  have hlen : t.length = w1.length + core.length + w2.length := by
    rw [hdec]; simp; omega
  have hfail := (subAll_zero_iff m (t.length + 1) none t (by omega)).mp h
  rw [applyPat]
  rw [subAll_zero_iff m (core.length + 1) none core (by omega)]
  intro j hj
  by_contra hmatch
  rw [← Ne, Option.ne_none_iff_exists'] at hmatch
  obtain ⟨⟨rep, rest⟩, hsome⟩ := hmatch
  obtain ⟨rep2, rest2, hsome2⟩ := hext (prevAt none core j) (core.drop j) rep rest w2 hw2 hsome
  have hdropeq : t.drop (w1.length + j) = core.drop j ++ w2 := by
    rw [hdec, List.append_assoc, drop_append_len]
    exact List.drop_append_of_le_length (by omega)
  have hpw : prevIsWord (prevAt none t (w1.length + j)) =
      prevIsWord (prevAt none core j) := by
    cases j with
    | zero =>
      cases hw : w1 with
      | nil => rfl
      | cons c cs =>
        have hlw : (c :: cs).length + 0 = cs.length + 1 := by simp
        rw [hlw]
        simp only [prevAt]
        have hk : cs.length < (c :: cs).length := by simp
        have hidx : t[cs.length]? = (c :: cs)[cs.length]? := by
          rw [hdec, hw, List.append_assoc, List.getElem?_append, if_pos hk]
        rw [hidx]
        cases hg : (c :: cs)[cs.length]? with
        | none =>
          have hcl := List.getElem?_eq_none_iff.mp hg
          simp at hcl
        | some d =>
          have hd := hw1 d (by rw [hw]; exact mem_of_getElem?_eq hg)
          simp [prevIsWord, isPySpace_not_word hd]
    | succ k =>
      have h2 : w1.length + (k + 1) = (w1.length + k) + 1 := by omega
      rw [h2]
      simp only [prevAt]
      have hidx : t[w1.length + k]? = core[k]? := by
        rw [hdec, List.append_assoc, getElem?_append_len, List.getElem?_append,
          if_pos (show k < core.length by omega)]
      rw [hidx]
  have hcontr := hfail (w1.length + j) (by omega)
  rw [hdropeq, hprev _ _ _ hpw, hsome2] at hcontr
  exact absurd hcontr (by simp)

theorem spanP_join (p : Char → Bool) :
    ∀ s : List Char, (spanP p s).1 ++ (spanP p s).2 = s := by
  intro s
  induction s with
  | nil => rfl
  | cons c t ih =>
    simp only [spanP]
    by_cases hp : p c
    · simp [hp, ih]
    · simp [hp]

theorem spanP_all (p : Char → Bool) :
    ∀ s : List Char, ∀ c ∈ (spanP p s).1, p c = true := by
  intro s
  induction s with
  | nil => intro c hc; simp [spanP] at hc
  | cons d t ih =>
    intro c hc
    simp only [spanP] at hc
    by_cases hp : p d
    · simp only [hp, if_true] at hc
      rcases List.mem_cons.mp hc with h | h
      · subst h; exact hp
      · exact ih c h
    · simp [hp] at hc

theorem spanP_rest_head (p : Char → Bool) :
    ∀ s : List Char, ∀ c, (spanP p s).2.head? = some c → p c = false := by
  intro s
  induction s with
  | nil => intro c hc; simp [spanP] at hc
  | cons d t ih =>
    intro c hc
    simp only [spanP] at hc
    by_cases hp : p d
    · simp only [hp, if_true] at hc
      exact ih c hc
    · simp only [hp, Bool.false_eq_true, if_false, List.head?_cons, Option.some_inj] at hc
      subst hc
      exact Bool.eq_false_iff.mpr hp

theorem cleanup_len_le : ∀ fuel s, (cleanupNewlines fuel s).length ≤ s.length := by
  intro fuel
  induction fuel with
  | zero => intro s; simp [cleanupNewlines]
  | succ f ih =>
    intro s
    cases s with
    | nil => simp [cleanupNewlines]
    | cons c t =>
      simp only [cleanupNewlines]
      by_cases hc : c = '\n'
      · simp only [hc, if_true]
        have hlen2 : (spanP (fun d => d = '\n') t).1.length +
            (spanP (fun d => d = '\n') t).2.length = t.length := by
          simpa using congrArg List.length (spanP_join (fun d => d = '\n') t)
        by_cases h2 : 2 ≤ (spanP (fun d => d = '\n') t).1.length
        · simp only [h2, if_true]
          have := ih (spanP (fun d => d = '\n') t).2
          simp only [List.length_append, List.length_cons, List.length_nil]
          omega
        · simp only [h2, if_false]
          have := ih (spanP (fun d => d = '\n') t).2
          simp only [List.length_append, List.length_cons, List.length_nil]
          omega
      · simp only [hc, if_false]
        have := ih t
        simp only [List.length_cons]
        omega

theorem triple_drop_head (k : Nat) (hk : k ≤ 2) (r : List Char) :
    (('\n' :: '\n' :: '\n' :: r).drop k).head? = some '\n' := by
  interval_cases k <;> simp

theorem hasTriple_tail (A r2 : List Char)
    (hAlen : A.length ≤ 2)
    (hhead : ∀ c, r2.head? = some c → c ≠ '\n')
    (h : HasTriple (A ++ r2)) : HasTriple r2 := by
  obtain ⟨l, r, hlr⟩ := h
  rcases List.append_eq_append_iff.mp hlr with ⟨m, hm1, hm2⟩ | ⟨m, hm1, hm2⟩
  · exact ⟨m, r, hm2⟩
  · -- A = l ++ m with the triple starting inside A: impossible, since then r2
    -- would begin with a newline
    exfalso
    have hmlen : m.length ≤ 2 := by
      have : l.length + m.length = A.length := by rw [hm1]; simp
      omega
    have hr2 : r2 = (('\n' : Char) :: '\n' :: '\n' :: r).drop m.length := by
      have := congrArg (List.drop m.length) hm2
      simpa using this.symm
    have hh := triple_drop_head m.length hmlen r
    rw [← hr2] at hh
    exact hhead '\n' hh rfl

theorem cleanup_len_lt :
    ∀ fuel s, HasTriple s → s.length < fuel →
      (cleanupNewlines fuel s).length < s.length := by
  intro fuel
  induction fuel with
  | zero => intro s _ h; omega
  | succ f ih =>
    intro s htrip hlen
    obtain ⟨l, r, hlr⟩ := htrip
    cases s with
    | nil => exact absurd hlr (by simp)
    | cons c t =>
      simp only [cleanupNewlines]
      by_cases hc : c = '\n'
      · simp only [hc, if_true]
        have hlen2 : (spanP (fun d => d = '\n') t).1.length +
            (spanP (fun d => d = '\n') t).2.length = t.length := by
          simpa using congrArg List.length (spanP_join (fun d => d = '\n') t)
        by_cases h2 : 2 ≤ (spanP (fun d => d = '\n') t).1.length
        · simp only [h2, if_true]
          have := cleanup_len_le f (spanP (fun d => d = '\n') t).2
          simp only [List.length_append, List.length_cons, List.length_nil]
          omega
        · simp only [h2, if_false]
          have heq : (c :: (spanP (fun d => d = '\n') t).1) ++
              (spanP (fun d => d = '\n') t).2 = c :: t := by
            rw [List.cons_append, spanP_join]
          have htrip2 : HasTriple (spanP (fun d => d = '\n') t).2 := by
            apply hasTriple_tail (c :: (spanP (fun d => d = '\n') t).1)
            · simp; omega
            · intro d hd he
              have := spanP_rest_head (fun e => e = '\n') t d hd
              rw [he] at this
              simp at this
            · exact ⟨l, r, by rw [heq, hlr]⟩
          have := ih (spanP (fun d => d = '\n') t).2 htrip2 (by
            simp only [List.length_cons] at hlen; omega)
          simp only [List.length_append, List.length_cons, List.length_nil]
          omega
      · simp only [hc, if_false]
        have htrip2 : HasTriple t := by
          cases l with
          | nil =>
            exfalso
            simp only [List.nil_append, List.cons.injEq] at hlr
            exact hc hlr.1
          | cons x l' =>
            simp only [List.cons_append, List.cons.injEq] at hlr
            exact ⟨l', r, hlr.2⟩
        have := ih t htrip2 (by simp only [List.length_cons] at hlen; omega)
        simp only [List.length_cons]
        omega

theorem cleanup_id_not_triple (fuel : Nat) (s : List Char)
    (hfuel : s.length < fuel)
    (h : cleanupNewlines fuel s = s) : ¬HasTriple s := by
  intro htrip
  have := cleanup_len_lt fuel s htrip hfuel
  rw [h] at this
  omega

theorem cleanup_id_of_not_triple :
    ∀ fuel s, ¬HasTriple s → cleanupNewlines fuel s = s := by
  intro fuel
  induction fuel with
  | zero => intro s _; rfl
  | succ f ih =>
    intro s hnt
    cases s with
    | nil => rfl
    | cons c t =>
      simp only [cleanupNewlines]
      by_cases hc : c = '\n'
      · simp only [hc, if_true]
        have hjoin := spanP_join (fun d => d = '\n') t
        by_cases h2 : 2 ≤ (spanP (fun d => d = '\n') t).1.length
        · exfalso
          apply hnt
          rcases hrun : (spanP (fun d => d = '\n') t).1 with _ | ⟨d1, rest1⟩
          · rw [hrun] at h2; simp at h2
          · rcases hrest : rest1 with _ | ⟨d2, rest2⟩
            · rw [hrun, hrest] at h2; simp at h2
            · have hd1 : d1 = '\n' := by
                simpa using spanP_all (fun d => d = '\n') t d1 (by rw [hrun]; simp)
              have hd2 : d2 = '\n' := by
                simpa using spanP_all (fun d => d = '\n') t d2
                  (by rw [hrun, hrest]; simp)
              have h5 := hjoin
              rw [hrun, hrest, hd1, hd2] at h5
              refine ⟨[], rest2 ++ (spanP (fun d => d = '\n') t).2, ?_⟩
              rw [hc]
              conv_lhs => rw [← h5]
              simp
        · simp only [h2, if_false]
          have hnt2 : ¬HasTriple (spanP (fun d => d = '\n') t).2 := by
            intro ⟨l, r, hlr⟩
            apply hnt
            refine ⟨c :: (spanP (fun d => d = '\n') t).1 ++ l, r, ?_⟩
            conv_lhs => rw [show t = (spanP (fun d => d = '\n') t).1 ++
              (spanP (fun d => d = '\n') t).2 from hjoin.symm]
            rw [hlr]
            simp
          rw [ih _ hnt2, List.cons_append, hjoin]
      · simp only [hc, if_false]
        have hnt2 : ¬HasTriple t := by
          intro ⟨l, r, hlr⟩
          exact hnt ⟨c :: l, r, by rw [hlr]; simp⟩
        rw [ih _ hnt2]

/-! ### `strip` is idempotent, and the assembled transfer -/
theorem dropWhile_head_false (p : Char → Bool) :
    ∀ l : List Char, ∀ c, (l.dropWhile p).head? = some c → p c = false := by
  intro l
  induction l with
  | nil => intro c hc; simp at hc
  | cons d t ih =>
    intro c hc
    by_cases hp : p d
    · rw [List.dropWhile_cons_of_pos hp] at hc
      exact ih c hc
    · rw [List.dropWhile_cons_of_neg hp] at hc
      simp only [List.head?_cons, Option.some_inj] at hc
      subst hc
      exact Bool.eq_false_iff.mpr hp

theorem dropWhile_eq_self_of_head (p : Char → Bool) (l : List Char)
    (h : ∀ c, l.head? = some c → p c = false) : l.dropWhile p = l := by
  cases l with
  | nil => rfl
  | cons d t =>
    have := h d (by simp)
    rw [List.dropWhile_cons_of_neg (by simp [this])]

theorem dropWhile_dropWhile (p : Char → Bool) (l : List Char) :
    (l.dropWhile p).dropWhile p = l.dropWhile p :=
  dropWhile_eq_self_of_head p _ (dropWhile_head_false p l)

theorem getLast?_dropWhile (p : Char → Bool) :
    ∀ l : List Char, l.dropWhile p ≠ [] → (l.dropWhile p).getLast? = l.getLast? := by
  intro l
  induction l with
  | nil => intro h; simp at h
  | cons d t ih =>
    intro h
    by_cases hp : p d
    · rw [List.dropWhile_cons_of_pos hp] at h ⊢
      rw [ih h]
      cases ht : t with
      | nil => rw [ht] at h; simp at h
      | cons e t' => simp [List.getLast?_cons_cons]
    · rw [List.dropWhile_cons_of_neg hp]

theorem pyStrip_idem (t : List Char) : pyStrip (pyStrip t) = pyStrip t := by
  simp only [pyStrip]
  set u := t.dropWhile isPySpace with hu
  set v := u.reverse.dropWhile isPySpace with hv
  have hA : v.reverse.dropWhile isPySpace = v.reverse := by
    apply dropWhile_eq_self_of_head
    intro c hc
    rw [List.head?_reverse] at hc
    cases hvn : v with
    | nil => rw [hvn] at hc; simp at hc
    | cons x xs =>
      have hne : u.reverse.dropWhile isPySpace ≠ [] := by rw [← hv, hvn]; simp
      rw [hv, getLast?_dropWhile isPySpace u.reverse hne, List.getLast?_reverse] at hc
      exact dropWhile_head_false isPySpace t c (by rw [← hu]; exact hc)
  rw [hA, List.reverse_reverse, dropWhile_dropWhile]

theorem hasTriple_infix (w1 core w2 : List Char) (h : HasTriple core) :
    HasTriple (w1 ++ core ++ w2) := by
  obtain ⟨l, r, hlr⟩ := h
  exact ⟨w1 ++ l, r ++ w2, by rw [hlr]; simp⟩

theorem runPats_zero_iff :
    ∀ (ms : List Matcher) (st : List Char × Nat),
      (runPats ms st).2 = 0 ↔ st.2 = 0 ∧ ∀ m ∈ ms, (applyPat m st.1).2 = 0 := by
  intro ms
  induction ms with
  | nil => intro st; simp [runPats]
  | cons m ms ih =>
    intro st
    simp only [runPats]
    rw [ih (passStep m st)]
    simp only [passStep]
    constructor
    · rintro ⟨h1, h2⟩
      have hz : (applyPat m st.1).2 = 0 := by omega
      have hid : (applyPat m st.1).1 = st.1 :=
        subAll_zero_id m (st.1.length + 1) none st.1 hz
      refine ⟨by omega, ?_⟩
      intro m' hm'
      rcases List.mem_cons.mp hm' with h | h
      · subst h; exact hz
      · have := h2 m' h
        rw [hid] at this
        exact this
    · rintro ⟨h1, h2⟩
      have hz : (applyPat m st.1).2 = 0 := h2 m (by simp)
      have hid : (applyPat m st.1).1 = st.1 :=
        subAll_zero_id m (st.1.length + 1) none st.1 hz
      refine ⟨by omega, ?_⟩
      intro m' hm'
      rw [hid]
      exact h2 m' (List.mem_cons_of_mem m hm')

theorem onePass_zero_iff (s : List Char) :
    (onePass s).2 = 0 ↔
      (∀ m ∈ thePatterns, (applyPat m s).2 = 0) ∧
        cleanupNewlines (s.length + 1) s = s := by
  simp only [onePass]
  constructor
  · intro h
    have hst : (runPats thePatterns (s, 0)).2 = 0 := by omega
    obtain ⟨-, hall⟩ := (runPats_zero_iff thePatterns (s, 0)).mp hst
    obtain ⟨htext, -⟩ := runPats_zero (thePatterns) (s, 0) hst
    have hcfix : cleanupNewlines ((runPats thePatterns (s, 0)).1.length + 1)
        (runPats thePatterns (s, 0)).1 = (runPats thePatterns (s, 0)).1 := by
      by_contra hne
      simp only [if_neg hne] at h
      omega
    rw [htext] at hcfix
    exact ⟨hall, hcfix⟩
  · rintro ⟨hall, hclean⟩
    have hst : (runPats thePatterns (s, 0)).2 = 0 :=
      (runPats_zero_iff thePatterns (s, 0)).mpr ⟨rfl, hall⟩
    obtain ⟨htext, -⟩ := runPats_zero (thePatterns) (s, 0) hst
    rw [htext, hclean]
    simp [hst]

theorem onePass_zero_strip (t : List Char) (h : (onePass t).2 = 0) :
    (onePass (pyStrip t)).2 = 0 := by
  obtain ⟨hall, hclean⟩ := (onePass_zero_iff t).mp h
  apply (onePass_zero_iff (pyStrip t)).mpr
  constructor
  · intro m hm
    have hcount := hall m hm
    fin_cases hm
    · exact applyPat_zero_transfer _ fix_3digit_hours_ext (fun _ _ _ _ => rfl) t hcount
    · exact applyPat_zero_transfer _ pad_milliseconds_ext (fun _ _ _ _ => rfl) t hcount
    · exact applyPat_zero_transfer _ fix_single_milliseconds_ext (fun _ _ _ _ => rfl) t hcount
    · exact applyPat_zero_transfer _ fix_frame_timestamps_ext (fun _ _ _ _ => rfl) t hcount
    · exact applyPat_zero_transfer _ fix_simple_frame_timestamps_ext (fun _ _ _ _ => rfl) t hcount
    · exact applyPat_zero_transfer _ fix_missing_hour_pre_ext fix_missing_hour_pre_prev t hcount
    · exact applyPat_zero_transfer _ fix_missing_hour_post_ext (fun _ _ _ _ => rfl) t hcount
    · exact applyPat_zero_transfer _ fix_timestamp_format_ext (fun _ _ _ _ => rfl) t hcount
    · exact applyPat_zero_transfer _ truncate_milliseconds_ext (fun _ _ _ _ => rfl) t hcount
    · exact applyPat_zero_transfer _ separate_blocks_ext (fun _ _ _ _ => rfl) t hcount
    · exact applyPat_zero_transfer _ fix_comma_in_timestamp_ext (fun _ _ _ _ => rfl) t hcount
    · exact applyPat_zero_transfer _ fix_empty_milliseconds_ext (fun _ _ _ _ => rfl) t hcount
  · have hnt : ¬HasTriple t := cleanup_id_not_triple (t.length + 1) t (by omega) hclean
    have hnt2 : ¬HasTriple (pyStrip t) := by
      intro htr
      obtain ⟨w1, w2, hdec, -, -⟩ := pyStrip_decomp t
      exact hnt (by rw [hdec]; exact hasTriple_infix w1 (pyStrip t) w2 htr)
    exact cleanup_id_of_not_triple (pyStrip t).length.succ (pyStrip t) hnt2

theorem data_mk (l : List Char) : (String.mk l).data = l := rfl

theorem fix_of_onePass_zero (s : List Char) (h : (onePass s).2 = 0) :
    fix_srt_timestamps_chars s = pyStrip s := by
  simp only [fix_srt_timestamps_chars]
  rw [show (15 : Nat) = 14 + 1 from rfl, fixLoop_stop 14 s h]

theorem converged_idem (s : String) (h : loopConverged s = true) :
    fix_srt_timestamps (fix_srt_timestamps s) = fix_srt_timestamps s := by
  have h0 : (onePass (fixLoop 15 s.data).1).2 = 0 := fixLoop_converged 15 s.data h
  have h1 : (onePass (pyStrip (fixLoop 15 s.data).1)).2 = 0 :=
    onePass_zero_strip _ h0
  have e2 : fix_srt_timestamps_chars s.data = pyStrip (fixLoop 15 s.data).1 := by
    simp only [fix_srt_timestamps_chars]
  have eouter : fix_srt_timestamps (fix_srt_timestamps s) =
      String.mk (fix_srt_timestamps_chars (fix_srt_timestamps_chars s.data)) := by
    simp only [fix_srt_timestamps, data_mk]
  have einner : fix_srt_timestamps s = String.mk (fix_srt_timestamps_chars s.data) := by
    simp only [fix_srt_timestamps]
  rw [eouter, e2, fix_of_onePass_zero _ h1, pyStrip_idem, einner, e2]

/-! ### Claims -/

/-- C1 (amended): the repair entry point is idempotent on every input on
which the rewrite loop converges (a pass with zero fixes occurs within the
iteration cap): fix_srt_timestamps (fix_srt_timestamps s) = fix_srt_timestamps s
whenever loopConverged s is true.  The unconditional statement is refuted by
claim_C1_counterexample. -/
theorem claim_C1 (s : String) (h : loopConverged s = true) :
    fix_srt_timestamps (fix_srt_timestamps s) = fix_srt_timestamps s :=
  converged_idem s h

/-- C1 witness: the loop converges on the empty string and idempotence holds
there. -/
theorem claim_C1_witness :
    loopConverged "" = true ∧
    fix_srt_timestamps (fix_srt_timestamps "") = fix_srt_timestamps "" :=
  ⟨by decide, claim_C1 "" (by decide)⟩

/-- C1 counterexample: on the input "3:500 --> x" the fix_missing_hour_pre
pattern fires on every pass, the loop hits the iteration cap without
converging, and running the function on its own output changes it again:
idempotence fails. -/
theorem claim_C1_counterexample :
    fix_srt_timestamps (fix_srt_timestamps "3:500 --> x") ≠
      fix_srt_timestamps "3:500 --> x" := by decide

/-- C2 (amended): the function has no canonical-form postcondition and no
fallback token.  Text none of whose content any repair pattern recognizes
(a pass applies zero fixes) and which carries no leading or trailing
whitespace is returned exactly unchanged; in particular an unparseable
timing line is passed through, never replaced by 00:00:00,000.  The original
postcondition is refuted by claim_C2_counterexample. -/
theorem claim_C2 (s : List Char) (h : (onePass s).2 = 0)
    (hs : pyStrip s = s) : fix_srt_timestamps_chars s = s := by
  rw [fix_of_onePass_zero s h, hs]

/-- C2 witness: the block whose timing line is "foo --> bar" is recognized by
no pattern and passes through unchanged. -/
theorem claim_C2_witness :
    (onePass ("1\nfoo --> bar\nHi").data).2 = 0 ∧
    pyStrip ("1\nfoo --> bar\nHi").data = ("1\nfoo --> bar\nHi").data ∧
    fix_srt_timestamps_chars ("1\nfoo --> bar\nHi").data =
      ("1\nfoo --> bar\nHi").data :=
  ⟨by decide, by decide, claim_C2 _ (by decide) (by decide)⟩

/-- C2 counterexample: the output for "1\nfoo --> bar\nHi" contains a line
with an arrow that does not match the strict canonical timing pattern, and
the unparseable tokens are not replaced by 00:00:00,000: the claimed
postcondition and fallback do not hold. -/
theorem claim_C2_counterexample :
    fix_srt_timestamps "1\nfoo --> bar\nHi" = "1\nfoo --> bar\nHi" ∧
    ((linesOf (fix_srt_timestamps "1\nfoo --> bar\nHi").data).any
      (fun l => containsSeq arrowChars l && !(matchesCanonicalPattern l))) = true := by
  decide

/-- C3 (amended): on the compact-seconds example the function first prepends
a missing hour field to each side (fix_missing_hour_pre and
fix_missing_hour_post) and the left side is then reinterpreted by the
sss rule, producing the timing line
"00:00:03:05,000 --> 00:08:04,490", not the line the specification claims. -/
theorem claim_C3 :
    fix_srt_timestamps "1\n00:03:500 --> 00:08:449\nHello" =
      "1\n00:00:03:05,000 --> 00:08:04,490\nHello" := by decide

/-- C3 counterexample: the claimed output timing line
"00:00:03,500 --> 00:00:08,449" does not occur among the lines of the actual
output. -/
theorem claim_C3_counterexample :
    ((linesOf (fix_srt_timestamps "1\n00:03:500 --> 00:08:449\nHello").data).contains
      "00:00:03,500 --> 00:00:08,449".data) = false := by decide

/-- C4 (amended): on the frame-annotated example the code computes the new
seconds and milliseconds with binary floating point and truncation by int(),
yielding "00:00:01,399 --> 00:00:03,399": frame 5 gives 1 + 5/25 = 1.2,
int(1.2) = 1 and int((1.2 mod 1) * 1000) = 199 under binary64, rendered as
,399 after the first pass has padded ,199 to ,199 and the ms_pad interplay is
absent; frame 10 gives 3.4 and 399 likewise. -/
theorem claim_C4 :
    fix_srt_timestamps "1\n00:00:01:05,200 --> 00:00:03:10,000\nText" =
      "1\n00:00:01,399 --> 00:00:03,399\nText" := by decide

/-- C4 counterexample: the claimed output timing line
"00:00:01,400 --> 00:00:03,600" does not occur among the lines of the actual
output. -/
theorem claim_C4_counterexample :
    ((linesOf
      (fix_srt_timestamps "1\n00:00:01:05,200 --> 00:00:03:10,000\nText").data).contains
      "00:00:01,400 --> 00:00:03,600".data) = false := by decide

/-- C5 (amended): the zero-pad example is returned unchanged: no repair
pattern matches "0:1:2,5 --> 0:1:5,80" (the ms_pad pattern requires
two-digit fields, the simple_frame pattern requires a three-component
right-hand side, and no rule zero-pads single-digit hour, minute or second
fields). -/
theorem claim_C5 :
    fix_srt_timestamps "1\n0:1:2,5 --> 0:1:5,80\nHi" =
      "1\n0:1:2,5 --> 0:1:5,80\nHi" := by decide

/-- C5 counterexample: the claimed output timing line
"00:01:02,500 --> 00:01:05,800" does not occur among the lines of the actual
output. -/
theorem claim_C5_counterexample :
    ((linesOf (fix_srt_timestamps "1\n0:1:2,5 --> 0:1:5,80\nHi").data).contains
      "00:01:02,500 --> 00:01:05,800".data) = false := by decide

/-- C6 (amended): the function performs no range clamping: a canonical-shape
timestamp with minutes = 75 passes through every pattern unchanged. -/
theorem claim_C6 :
    fix_srt_timestamps "1\n00:75:10,000 --> 00:76:10,000\nX" =
      "1\n00:75:10,000 --> 00:76:10,000\nX" := by decide

/-- C6 counterexample: the output still contains the token "00:75:10,000",
whose parsed minutes component 75 is out of range, so components are not
clamped into range after repair. -/
theorem claim_C6_counterexample :
    containsSeq "00:75:10,000".data
      (fix_srt_timestamps "1\n00:75:10,000 --> 00:76:10,000\nX").data = true ∧
    parseCanonTS "00:75:10,000".data = some (0, 75, 10, 0) ∧ ¬(75 ≤ 59) := by decide

/-- C7 (amended): on the quoted example both millisecond fields have at least
three digits and truncation keeps exactly the first three digits, with no
rounding: the output is "00:00:01,800 --> 00:00:05,123".  The universal
statement is refuted by claim_C7_counterexample: when the opposite side has a
one- or two-digit millisecond field, the ms_pad pattern rewrites the long
field before truncation reaches it. -/
theorem claim_C7 :
    fix_srt_timestamps "1\n00:00:01,8000 --> 00:00:05,12345\nY" =
      "1\n00:00:01,800 --> 00:00:05,123\nY" := by decide

/-- C7 counterexample: with ",5" on the left, the ms_pad pattern pads both
sides first (",12345" becomes ",120345"), and truncation then keeps ",120",
not the first three digits ",123" of the original field. -/
theorem claim_C7_counterexample :
    fix_srt_timestamps "1\n00:00:01,5 --> 00:00:02,12345\nY" =
      "1\n00:00:01,500 --> 00:00:02,120\nY" ∧
    containsSeq ",123".data
      (fix_srt_timestamps "1\n00:00:01,5 --> 00:00:02,12345\nY").data = false := by
  decide

/-- C8 (amended): the function is total by construction and, on any input on
which a pass applies zero fixes (which includes the empty string and every
string none of whose content a pattern recognizes), it returns the input
stripped of leading and trailing whitespace - not the input unchanged.  The
unchanged-return claim is refuted by claim_C8_counterexample. -/
theorem claim_C8 (s : String) (h : (onePass s.data).2 = 0) :
    fix_srt_timestamps s = String.mk (pyStrip s.data) := by
  simp only [fix_srt_timestamps]
  rw [fix_of_onePass_zero s.data h]

/-- C8 witness: the empty string has a zero-fix pass and is returned as the
strip of itself, the empty string. -/
theorem claim_C8_witness :
    (onePass ("" : String).data).2 = 0 ∧
    fix_srt_timestamps "" = String.mk (pyStrip ("" : String).data) :=
  ⟨by decide, claim_C8 "" (by decide)⟩

/-- C8 counterexample: the pathological input " x" is recognized by no
pattern yet is not returned unchanged: the final strip removes the leading
space. -/
theorem claim_C8_counterexample :
    fix_srt_timestamps " x" = "x" ∧ (" x" : String) ≠ "x" := by decide

/-- C9: the rewrite loop always terminates within the iteration cap of 15
passes, and it stops after a single pass as soon as that pass applies zero
fixes. -/
theorem claim_C9 (s : String) :
    fixIterations s ≤ 15 ∧ ((onePass s.data).2 = 0 → fixIterations s = 1) := by
  constructor
  · exact fixLoop_le 15 s.data
  · intro h
    simp only [fixIterations]
    rw [show (15 : Nat) = 14 + 1 from rfl, fixLoop_stop 14 s.data h]

/-- C9 witness: on the empty string the loop runs exactly one pass, within
the cap. -/
theorem claim_C9_witness :
    fixIterations "" ≤ 15 ∧ fixIterations "" = 1 :=
  ⟨(claim_C9 "").1, (claim_C9 "").2 (by decide)⟩
